import Mathlib

/-!
Verification of the concurrent batch-request engine in `scripts/ai_translator.py`
(classes `AIClient` and `AITranslator`, module helpers `_is_english_text_logic`
and `is_english_text`).

Shallow embedding conventions:
* Python `dict` (string- or int-keyed) is modelled by an association list with
  insertion-order iteration; assignment to an existing key updates it in place,
  assignment to a new key appends at the end (`pyinsert`), exactly like CPython
  dicts.  `pylookup` is `d.get`/`in`-membership.
* `None`-able values are `Option`.
* The network boundary is an oracle: one attempt of `requests.post` +
  `.json()` + field extraction is an `Attempt` (either an exception, or a
  completed response with an HTTP status and the extracted/stripped body
  text); `AIClient._send_request_with_retry` is modelled over an oracle
  `Nat → Attempt` giving the outcome of each attempt, and the whole of
  `_send_request_with_retry` is abstracted, at the `process_batch` level, by
  a function `String → Option String` from the prompt to its final outcome.
* Thread-pool concurrency is modelled by running the batches sequentially in
  submission order (one legal interleaving of the worker pool) while the
  `as_completed` consumption loop — result placement and progress calls — is
  driven by an arbitrary completion-order permutation `order`.
* Instrumentation: `ClientState` carries counters for transport and
  prompt-callback invocations and a log of cache writes, so that "zero network
  calls" and "cache overwrite" are observable propositions.
* The float comparison `latin_and_punct / total_chars >= 0.7` is embedded as
  the exact rational comparison `7 * total ≤ 10 * latin`.
-/

/-! ### Python dict as an insertion-ordered association list -/

/-- `d.get(k)` / `k in d` for a Python dict modelled as an assoc list. -/
def pylookup {κ ν : Type} [BEq κ] (d : List (κ × ν)) (k : κ) : Option ν :=
  (d.find? (fun p => p.1 == k)).map (fun p => p.2)

/-- `d[k] = v` for a Python dict: update in place if the key exists,
append at the end otherwise (CPython insertion-order semantics). -/
def pyinsert {κ ν : Type} [BEq κ] : List (κ × ν) → κ → ν → List (κ × ν)
  | [], k, v => [(k, v)]
  | p :: rest, k, v =>
    if p.1 == k then (p.1, v) :: rest else p :: pyinsert rest k v

/-! ### Retrying transport: `AIClient._send_request_with_retry`

One attempt of the loop body (the `session.post` call, `response.json()` and
the two-path field extraction, all inside the `try`) either raises — any
exception is caught and counts as a retryable failure — or completes with an
HTTP status code and the extracted, stripped body text. -/

/-- Outcome of a single transport attempt. `exn` covers any exception raised
inside the `try` block (connection error, timeout, JSON decode failure);
`resp status text` is a completed HTTP response whose body was extracted. -/
inductive Attempt where
  | exn : Attempt
  | resp (status : Nat) (text : String) : Attempt

/-- The loop body's successful result, if any: the code returns the extracted
text exactly when the response completed with `status_code == 200`; any other
status falls through to the retry logic, as does an exception. -/
def succOf : Attempt → Option String
  | Attempt.exn => none
  | Attempt.resp status text => if status == 200 then some text else none

/-- Result of `_send_request_with_retry`, instrumented with the number of
attempts actually made and the number of `time.sleep(retry_delay)` calls. -/
structure RetryResult where
  result : Option String
  attempts : Nat
  sleeps : Nat
  deriving DecidableEq, Repr

/-- The `for attempt in range(self.max_retries)` loop, over the list of the
outcomes of the successive attempts.  A successful attempt returns
immediately; a failed attempt sleeps `retry_delay` seconds iff it is not the
last one (`attempt < self.max_retries - 1`), then retries. -/
def retryLoop : List Attempt → RetryResult
  | [] => ⟨none, 0, 0⟩
  | [a] =>
    match succOf a with
    | some t => ⟨some t, 1, 0⟩
    | none => ⟨none, 1, 0⟩
  | a :: b :: rest =>
    match succOf a with
    | some t => ⟨some t, 1, 0⟩
    | none =>
      let r := retryLoop (b :: rest)
      ⟨r.result, r.attempts + 1, r.sleeps + 1⟩

/-- `AIClient._send_request_with_retry`, with the network modelled by the
oracle `o : Nat → Attempt` giving the outcome of the `k`-th attempt. -/
def sendRequestWithRetry (o : Nat → Attempt) (max_retries : Nat) : RetryResult :=
  retryLoop ((List.range max_retries).map o)

/-! ### The English-text heuristic: `_is_english_text_logic` -/

/-- Whitespace for Python `str.strip()` / regex `\s`, at ASCII level. -/
def isPySpace (c : Char) : Bool :=
  c.toNat == 32 || c.toNat == 9 || c.toNat == 10 || c.toNat == 13 ||
  c.toNat == 11 || c.toNat == 12

/-- Python `s.strip()` (ASCII whitespace; the texts handled by the scripts
are ASCII/CJK, where this coincides with Python). -/
def pyStrip (s : String) : String :=
  String.mk (((s.toList.dropWhile isPySpace).reverse.dropWhile isPySpace).reverse)

/-- `char in string.ascii_letters`. -/
def isAsciiLetter (c : Char) : Bool :=
  (65 ≤ c.toNat && c.toNat ≤ 90) || (97 ≤ c.toNat && c.toNat ≤ 122)

/-- `char in string.digits`. -/
def isAsciiDigit (c : Char) : Bool :=
  48 ≤ c.toNat && c.toNat ≤ 57

/-- The literal punctuation set of the source:
`" .,!?:;-_'\"()[]{}<>/\\|=+&%$#@"`. -/
def englishPunct : String :=
  " .,!?:;-_\x27\"()[]\x7b\x7d<>/\\|=+&%$#@"

/-- The character-counting loop of `_is_english_text_logic`: returns
`(latin_and_punct, total_chars)`.  Letters/digits and the punctuation set
count into both tallies; `\n`, `\t`, `\r` hit `continue` and are skipped from
both; every other character counts into `total_chars` only. -/
def engCounts (text : String) : Nat × Nat :=
  text.toList.foldl
    (fun acc c =>
      if isAsciiLetter c || isAsciiDigit c then (acc.1 + 1, acc.2 + 1)
      else if englishPunct.toList.contains c then (acc.1 + 1, acc.2 + 1)
      else if c.toNat == 10 || c.toNat == 9 || c.toNat == 13 then acc
      else (acc.1, acc.2 + 1))
    (0, 0)

/-- Module-level `_is_english_text_logic(text)`.  The final float comparison
`latin_and_punct / total_chars >= 0.7` is embedded exactly as the rational
comparison `7 * total ≤ 10 * latin`. -/
def isEnglishTextLogic (text : String) : Bool :=
  if (pyStrip text).isEmpty then false
  else if text.toList.any (fun c => 0x4e00 ≤ c.toNat && c.toNat ≤ 0x9fff) then false
  else if !(text.toList.any (fun c => isAsciiLetter c)) then false
  else
    let lp := (engCounts text).1
    let tot := (engCounts text).2
    if tot == 0 then false
    else decide (7 * tot ≤ 10 * lp)

/-- Module-level `is_english_text(text)` (and the identical
`AITranslator.is_english_text`), both of which just call
`_is_english_text_logic`. -/
def is_english_text (text : String) : Bool :=
  isEnglishTextLogic text

/-- The claim's "counting every character of text except newline, tab, and
carriage return". -/
def engKeep (c : Char) : Bool :=
  !(c.toNat == 10 || c.toNat == 9 || c.toNat == 13)

/-- The claim's "ASCII letters, ASCII digits, or members of the punctuation
set". -/
def engGood (c : Char) : Bool :=
  isAsciiLetter c || isAsciiDigit c || englishPunct.toList.contains c

/-- The claim's reading of the heuristic, written independently from its
wording: a filter/count over the characters of the text, with the three
short-circuit rejections up front. -/
def isEnglishSpec (text : String) : Bool :=
  let blank := (pyStrip text).isEmpty
  let hasCJK := text.toList.any (fun c => 0x4e00 ≤ c.toNat && c.toNat ≤ 0x9fff)
  let hasLetter := text.toList.any (fun c => isAsciiLetter c)
  let counted := text.toList.filter engKeep
  if blank || hasCJK || !hasLetter then false
  else decide (7 * counted.length ≤ 10 * (counted.countP engGood))

/-! ### The batch engine: `AIClient` -/

/-- The `TranslationItem` dataclass (`sectionName` stands for the source field
`section`, a Lean keyword). -/
structure TranslationItem where
  sectionName : String
  key : String
  en_value : String
  zh_value : Option String := none
  is_commented : Bool := false
  line_num : Int := -1
  needs_translation : Bool := true
  deriving DecidableEq, Repr

/-- The behavioural configuration of an `AIClient`, generic in the item type
`α` (the engine treats items as opaque).  `transport` abstracts
`self._send_request_with_retry` — prompt in, final outcome out (`none` for
"all retries exhausted").  `max_workers` only bounds parallelism and has no
observable effect in the sequential-interleaving model. -/
structure ClientCfg (α : Type) where
  transport : String → Option String
  promptCb : List α → String
  resultCb : String → List α → List (Nat × Option String)
  cacheKeyCb : Option (α → String)
  batch_size : Nat
  max_workers : Nat := 5

/-- The mutable state of an `AIClient` instance: `self.cache`, plus
instrumentation — the number of transport invocations (network requests
issued), the number of prompt-callback invocations, and the log of
`self.cache[cache_key] = result` writes in order. -/
structure ClientState where
  cache : List (String × String)
  calls : Nat
  promptCalls : Nat
  writes : List (String × String)
  deriving DecidableEq, Repr

/-- The state of a freshly constructed client: `self.cache = {}`. -/
def initState : ClientState := ⟨[], 0, 0, []⟩

/-- The cache-check loop of `process_batch` (`for i, item in
enumerate(batch_items)` starting at index `i`): returns
`(cached_results, remaining_items, remaining_indices)`.  The recursion builds
the same insertion-ordered dict as the Python loop, since indices are
strictly increasing. -/
def cacheSplit (keyCb : α → String) (cache : List (String × String)) :
    Nat → List α → List (Nat × Option String) × List α × List Nat
  | _, [] => ([], [], [])
  | i, item :: rest =>
    let (c, ri, rix) := cacheSplit keyCb cache (i + 1) rest
    match pylookup cache (keyCb item) with
    | some v => ((i, some v) :: c, ri, rix)
    | none => (c, item :: ri, i :: rix)

/-- The merge loop of `process_batch` on transport success
(`for idx_in_remaining, result in batch_results.items(): ...`): folds the
parsed results into `all_results`, writing each non-`None` result into the
cache when a cache-key callback is present. -/
def mergeResults (cfg : ClientCfg α) (remaining_items : List α)
    (remaining_indices : List Nat) (batch_results : List (Nat × Option String))
    (acc0 : List (Nat × Option String)) (st0 : ClientState) :
    List (Nat × Option String) × ClientState :=
  batch_results.foldl
    (fun acc p =>
      match remaining_indices[p.1]?, remaining_items[p.1]? with
      | some original_idx, some item =>
        match p.2 with
        | some r =>
          let acc1 := pyinsert acc.1 original_idx (some r)
          let st' :=
            match cfg.cacheKeyCb with
            | some keyCb =>
              { acc.2 with
                cache := pyinsert acc.2.cache (keyCb item) r
                writes := acc.2.writes ++ [(keyCb item, r)] }
            | none => acc.2
          (acc1, st')
        | none => acc
      | _, _ => acc)
    (acc0, st0)

/-- `AIClient.process_batch`.  Returns the result dict (index in the batch ↦
result or `None`) and the updated client state.  The `if not response_text:`
test in the source is true both for `None` and for the empty string, so both
take the failure path. -/
def process_batch (cfg : ClientCfg α) (st : ClientState) (batch_items : List α) :
    List (Nat × Option String) × ClientState :=
  if batch_items.isEmpty then ([], st)
  else
    let split :=
      match cfg.cacheKeyCb with
      | some keyCb => cacheSplit keyCb st.cache 0 batch_items
      | none => ([], batch_items, List.range batch_items.length)
    let cached_results := split.1
    let remaining_items := split.2.1
    let remaining_indices := split.2.2
    if remaining_items.isEmpty then (cached_results, st)
    else
      let prompt := cfg.promptCb remaining_items
      let st1 := { st with promptCalls := st.promptCalls + 1 }
      let response := cfg.transport prompt
      let st2 := { st1 with calls := st1.calls + 1 }
      let failed := match response with
        | none => true
        | some t => t.isEmpty
      if failed then
        (remaining_indices.foldl (fun acc idx => pyinsert acc idx none)
          cached_results, st2)
      else
        let t := response.getD ""
        let batch_results := cfg.resultCb t remaining_items
        mergeResults cfg remaining_items remaining_indices batch_results
          cached_results st2

/-- The batching loop of `process_batches`
(`for i in range(0, len(all_items), self.batch_size)`): batch `j` is the
slice starting at the `j`-th multiple of `batch_size`.  `range(0, n, b)` has
`⌈n/b⌉` elements (the function is never called with `b = 0`; Python would
raise there). -/
def chunks (l : List α) (b : Nat) : List (List α) :=
  (List.range ((l.length + b - 1) / b)).map (fun j => (l.drop (j * b)).take b)

/-- Placement of one completed batch's results
(`for relative_idx, result in batch_results.items(): ...` with the
`absolute_idx < len(all_results)` guard). -/
def writeBatch (arr : List (Option String)) (start : Nat)
    (m : List (Nat × Option String)) : List (Option String) :=
  m.foldl
    (fun a p => if start + p.1 < a.length then a.set (start + p.1) p.2 else a)
    arr

/-- Sequential execution of the submitted batches in submission order (one
legal schedule of the worker pool), threading the shared client state;
returns the per-batch result dicts in submission order. -/
def runBatches (cfg : ClientCfg α) (st : ClientState) :
    List (List α) → List (List (Nat × Option String)) × ClientState
  | [] => ([], st)
  | b :: rest =>
    let r := process_batch cfg st b
    let rr := runBatches cfg r.2 rest
    (r.1 :: rr.1, rr.2)

/-- Output of `process_batches`: the assembled result list, the final client
state, and the arguments of the successive `progress_callback` invocations
(in completion order). -/
structure BatchesOut where
  results : List (Option String)
  state : ClientState
  progress : List (Nat × Nat)
  deriving DecidableEq, Repr

/-- The body of the `as_completed` loop: place each completed batch's
results into the preallocated array, in completion order `order`. -/
def placeResults (maps : List (List (Nat × Option String))) (bs : Nat)
    (order : List Nat) (arr : List (Option String)) : List (Option String) :=
  order.foldl
    (fun a bidx =>
      match maps[bidx]? with
      | some m => writeBatch a (bidx * bs) m
      | none => a)
    arr

/-- `AIClient.process_batches`.  `order` is the completion order of the
`as_completed` loop: the list of batch indices in the order their futures
complete (a permutation of `0..num_batches-1`).  For each completion the
results are placed at `start_idx + relative_idx` and the progress callback is
invoked with `(batch_idx + 1, total_batches)`.  The final
`final_results.append(all_results[i])` loop is an identity copy.  (The
`except` arm of the loop is unreachable here: `process_batch` is total and
never raises.) -/
def process_batches (cfg : ClientCfg α) (st : ClientState) (all_items : List α)
    (order : List Nat) : BatchesOut :=
  if all_items.isEmpty then ⟨[], st, []⟩
  else
    let batches := chunks all_items cfg.batch_size
    let run := runBatches cfg st batches
    ⟨placeResults run.1 cfg.batch_size order
        (List.replicate all_items.length none),
      run.2, order.map (fun bidx => (bidx + 1, batches.length))⟩

/-! ### The translator layer: `AITranslator` -/

/-- `AITranslator._get_cache_key`: `f"{item.section}:{item.key}:{item.en_value}"`. -/
def getCacheKey (item : TranslationItem) : String :=
  item.sectionName ++ ":" ++ item.key ++ ":" ++ item.en_value

/-- `AITranslator._create_batch_prompt` (the prompt callback).  The glossary
is the insertion-ordered `self.glossary` dict. -/
def createBatchPrompt (glossary : List (String × String))
    (items : List TranslationItem) : String :=
  let items_text := String.join (items.enum.map (fun p =>
    toString (p.1 + 1) ++ ". Section: " ++ p.2.sectionName ++ ", Key: " ++
      p.2.key ++ "\n" ++ "   英文: " ++ p.2.en_value ++ "\n\n"))
  let glossary_text :=
    if glossary.isEmpty then ""
    else "\n名词表参考（请优先使用以下术语的翻译）：\n" ++
      String.join (glossary.map (fun p => "- " ++ p.1 ++ ": " ++ p.2 ++ "\n")) ++
      "\n"
  let game_context :=
    "《异星工厂》是一款科幻/工业自动化游戏，主题包括科技、工厂、自动化、神秘、哲学等。"
  "请将以下游戏文本从英文翻译成简体中文。要求：\n\n重要规则：\n" ++
  "1. 保持准确的技术含义和游戏术语\n" ++
  "2. 保持格式标记不变（如[color=red]、[item=...]、[fluid=...]、[entity=...]、[font=...]、[img=...]等）\n" ++
  "3. 类似\"__xxx__\"这样的游戏变量（如__ENTITY__、__ITEM__、__FLUID__、__1__、__2__、__REMARK_COLOR_BEGIN__、__REMARK_COLOR_END__等）不应该被翻译，必须原样保留\n" ++
  "4. 在准确的基础上，尽量让翻译有趣、生动、有游戏感\n" ++
  "5. 可以适当加入幽默感，但不要过度，以免失去原文的专业和神秘氛围\n" ++
  "6. 保持文本的流畅性和可读性\n" ++
  "7. 如果文本中包含名词表中的术语，请优先使用名词表中的翻译\n\n" ++
  "游戏背景：" ++ game_context ++ "\n\n" ++ glossary_text ++
  "\n请按以下格式回复，严格保持编号对应：\n1. 中文翻译：[翻译结果1]\n2. 中文翻译：[翻译结果2]\n...\n\n" ++
  "需要翻译的文本：\n" ++ items_text ++ "\n\n请开始翻译："

/-- Digits of a decimal numeral to a `Nat` (Python `int(...)` on the matched
digit group). -/
def strToNat (s : String) : Nat :=
  s.toList.foldl (fun n c => n * 10 + (c.toNat - 48)) 0

/-- The optional-label part `(?:中文翻译：|翻译：|:)?` of the tier-1 regex,
with its backtracking: an alternative is kept only if a nonempty remainder
survives for the final `(.+)$` (the alternatives start with distinct
characters, so at most one can apply). -/
def pfxChoose (rest2 : String) : String :=
  if rest2.startsWith "中文翻译：" then
    (if (rest2.drop 5).isEmpty then rest2 else rest2.drop 5)
  else if rest2.startsWith "翻译：" then
    (if (rest2.drop 3).isEmpty then rest2 else rest2.drop 3)
  else if rest2.startsWith ":" then
    (if (rest2.drop 1).isEmpty then rest2 else rest2.drop 1)
  else rest2

/-- Backtracking over the greedy `(\d+)` group of the tier-1 regex: try the
digit prefix of length `k`, shrinking on failure.  Inputs are pre-stripped
(the source applies the regex to `line.strip()`), so a nonempty suffix always
ends in a non-whitespace character and the `\s*` groups never need to give
characters back. -/
def matchNumTry (s : String) : Nat → Option (Nat × String)
  | 0 => none
  | k + 1 =>
    let rest0 := s.drop (k + 1)
    let rest1 :=
      if rest0.startsWith "." && !(rest0.drop 1).isEmpty then rest0.drop 1
      else rest0
    if rest1.isEmpty then matchNumTry s k
    else
      let rest2 := String.mk (rest1.toList.dropWhile isPySpace)
      let rest3 := pfxChoose rest2
      if rest3.isEmpty then matchNumTry s k
      else
        let rest4 := String.mk (rest3.toList.dropWhile isPySpace)
        some (strToNat (s.take (k + 1)),
          if rest4.isEmpty then rest3 else rest4)

/-- `re.match(r"^\s*(\d+)\.?\s*(?:中文翻译：|翻译：|:)?\s*(.+)$", line)` on a
pre-stripped line: returns `(int(group(1)), group(2))` on success. -/
def matchNumberedLine (s : String) : Option (Nat × String) :=
  let ds := s.toList.takeWhile (fun c => isAsciiDigit c)
  if ds.isEmpty then none else matchNumTry s ds.length

/-- Tier-1 parsing: one pass over the response lines, inserting
`int(group(1)) - 1 ↦ group(2).strip()` for every line matching the numbered
pattern, subject to `0 <= idx < len(items)`. -/
def parseTier1 (lines : List String) (numItems : Nat) : List (Nat × String) :=
  lines.foldl
    (fun acc line =>
      match matchNumberedLine (pyStrip line) with
      | some (n, val) =>
        if 1 ≤ n && n - 1 < numItems then pyinsert acc (n - 1) (pyStrip val)
        else acc
      | none => acc)
    []

/-- `re.sub(r"^\d+[\.:]\s*", "", line)`: strip a leading numeric label. -/
def dropNumLabel (s : String) : String :=
  let ds := s.toList.takeWhile (fun c => isAsciiDigit c)
  if ds.isEmpty then s
  else
    let rest := s.drop ds.length
    if rest.startsWith "." || rest.startsWith ":" then
      String.mk ((rest.drop 1).toList.dropWhile isPySpace)
    else s

/-- One line of tier-2 (line-order fallback) parsing. -/
def tier2Line (line : String) : String :=
  let l1 := pyStrip line
  let l2 := dropNumLabel l1
  let l3 := if l2.startsWith "中文翻译：" then l2.drop 5 else l2
  let l4 := if l3.startsWith "翻译：" then l3.drop 3 else l3
  pyStrip l4

/-- `AITranslator._parse_batch_response`: tier-1 numbered parsing; if the
result count differs from the item count, restart with tier-2 line-order
parsing. -/
def parseBatchResponse (response_text : String)
    (items : List TranslationItem) : List (Nat × String) :=
  let lines := (pyStrip response_text).splitOn "\n"
  let t1 := parseTier1 lines items.length
  if t1.length != items.length then
    lines.enum.foldl
      (fun acc p =>
        if p.1 < items.length then pyinsert acc p.1 (tier2Line p.2) else acc)
      []
  else t1

/-- The `ClientCfg` that `AITranslator.translate_items` passes to its
`AIClient`: the translator's prompt builder, its response parser (whose
values are all non-`None` strings, hence the `some` wrapper), and
`_get_cache_key`. -/
def translatorCfg (transport : String → Option String)
    (glossary : List (String × String)) (batch_size : Nat) :
    ClientCfg TranslationItem :=
  { transport := transport
    promptCb := createBatchPrompt glossary
    resultCb := fun t items => (parseBatchResponse t items).map
      (fun p => (p.1, some p.2))
    cacheKeyCb := some getCacheKey
    batch_size := batch_size }

/-- `AITranslator.translate_items`: run `process_batches`, then replace every
`None` result by the item's `en_value` (the per-item fallback).  The final
loop indexes `items[i]` for `i` below the results length, which equals
`len(items)`; `zipWith` is that loop. -/
def translate_items (transport : String → Option String)
    (glossary : List (String × String)) (batch_size : Nat) (st : ClientState)
    (items : List TranslationItem) (order : List Nat) :
    List String × ClientState :=
  if items.isEmpty then ([], st)
  else
    let out := process_batches (translatorCfg transport glossary batch_size) st
      items order
    (List.zipWith
      (fun item tr => match tr with | some t => t | none => item.en_value)
      items out.results, out.state)

/-- The result that the batch run produced for absolute index `i`: the entry
of its batch's result dict at the in-batch relative index, or `none` when the
dict has no such key (an unwritten slot keeps its preallocated `None`). -/
def producedFor (maps : List (List (Nat × Option String))) (bs i : Nat) :
    Option String :=
  match maps[i / bs]? with
  | some m =>
    match pylookup m (i % bs) with
    | some v => v
    | none => none
  | none => none

/-! ## Theorems -/

/-! ### Dictionary lemmas -/

theorem pylookup_nil {κ ν : Type} [BEq κ] (k : κ) :
    pylookup ([] : List (κ × ν)) k = none := rfl

theorem pylookup_cons {κ ν : Type} [BEq κ] (p : κ × ν) (d : List (κ × ν)) (k : κ) :
    pylookup (p :: d) k = if p.1 == k then some p.2 else pylookup d k := by
  simp only [pylookup, List.find?]
  by_cases h : p.1 == k <;> simp [h]

theorem pyinsert_lookup_self {κ ν : Type} [BEq κ] [LawfulBEq κ]
    (d : List (κ × ν)) (k : κ) (v : ν) :
    pylookup (pyinsert d k v) k = some v := by
  induction d with
  | nil => simp [pyinsert, pylookup_cons]
  | cons p rest ih =>
    by_cases h : p.1 == k
    · simp [pyinsert, h, pylookup_cons]
    · simp [pyinsert, h, pylookup_cons, ih]

theorem pyinsert_lookup_ne {κ ν : Type} [BEq κ] [LawfulBEq κ]
    (d : List (κ × ν)) (k k' : κ) (v : ν) (hne : k' ≠ k) :
    pylookup (pyinsert d k v) k' = pylookup d k' := by
  induction d with
  | nil =>
    simp only [pyinsert, pylookup_cons, pylookup_nil]
    have : (k == k') = false := by simpa using fun h => hne h.symm
    simp [this]
  | cons p rest ih =>
    by_cases h : p.1 == k
    · have hpk : p.1 = k := by simpa using h
      have h1 : (p.1 == k') = false := by
        simp only [beq_eq_false_iff_ne, ne_eq, hpk]
        exact fun h' => hne h'.symm
      have h2 : (k == k') = false := by
        simp only [beq_eq_false_iff_ne, ne_eq]
        exact fun h' => hne h'.symm
      simp [pyinsert, h, pylookup_cons, h1, h2, hpk]
    · simp [pyinsert, h, pylookup_cons, ih]

theorem pyinsert_mem {κ ν : Type} [BEq κ] [LawfulBEq κ]
    (d : List (κ × ν)) (k : κ) (v : ν) (q : κ × ν) (hq : q ∈ pyinsert d k v) :
    q ∈ d ∨ q = (k, v) := by
  induction d with
  | nil =>
    simp only [pyinsert, List.mem_singleton] at hq
    exact Or.inr hq
  | cons p rest ih =>
    by_cases h : p.1 == k
    · have hpk : p.1 = k := by simpa using h
      simp only [pyinsert, h, if_true, List.mem_cons] at hq
      rcases hq with hq | hq
      · exact Or.inr (by simp [hq, hpk])
      · exact Or.inl (List.mem_cons_of_mem _ hq)
    · simp only [pyinsert, h, Bool.false_eq_true, if_false, List.mem_cons] at hq
      rcases hq with hq | hq
      · exact Or.inl (List.mem_cons.mpr (Or.inl hq))
      · rcases ih hq with h' | h'
        · exact Or.inl (List.mem_cons_of_mem _ h')
        · exact Or.inr h'

theorem pyinsert_key_mem {κ ν : Type} [BEq κ] [LawfulBEq κ]
    (d : List (κ × ν)) (k : κ) (v : ν) (x : κ)
    (hx : x ∈ (pyinsert d k v).map Prod.fst) :
    x ∈ d.map Prod.fst ∨ x = k := by
  rcases List.mem_map.mp hx with ⟨q, hq, hq1⟩
  rcases pyinsert_mem d k v q hq with h | h
  · exact Or.inl (List.mem_map.mpr ⟨q, h, hq1⟩)
  · exact Or.inr (by rw [h] at hq1; simpa using hq1.symm)

theorem pyinsert_keys_nodup {κ ν : Type} [BEq κ] [LawfulBEq κ]
    (d : List (κ × ν)) (k : κ) (v : ν) (h : (d.map Prod.fst).Nodup) :
    ((pyinsert d k v).map Prod.fst).Nodup := by
  induction d with
  | nil => simp [pyinsert]
  | cons p rest ih =>
    simp only [List.map_cons, List.nodup_cons] at h
    by_cases hk : p.1 == k
    · simp only [pyinsert, hk, if_true, List.map_cons, List.nodup_cons]
      exact ⟨h.1, h.2⟩
    · have hpk : p.1 ≠ k := by simpa using hk
      simp only [pyinsert, hk, Bool.false_eq_true, if_false, List.map_cons,
        List.nodup_cons]
      refine ⟨fun hmem => ?_, ih h.2⟩
      rcases pyinsert_key_mem rest k v p.1 hmem with h' | h'
      · exact h.1 h'
      · exact hpk h'

/-! ### Retry transport lemmas -/

theorem retryLoop_attempts_pos (a : Attempt) (l : List Attempt) :
    1 ≤ (retryLoop (a :: l)).attempts := by
  cases l with
  | nil => cases h : succOf a <;> simp [retryLoop, h]
  | cons b rest => cases h : succOf a <;> simp [retryLoop, h]

theorem retryLoop_bounds (l : List Attempt) :
    (retryLoop l).attempts ≤ l.length ∧
      (retryLoop l).sleeps = (retryLoop l).attempts - 1 := by
  induction l with
  | nil => simp [retryLoop]
  | cons a rest ih =>
    cases rest with
    | nil => cases h : succOf a <;> simp [retryLoop, h]
    | cons b rr =>
      cases h : succOf a with
      | some t => simp [retryLoop, h]
      | none =>
        have hpos := retryLoop_attempts_pos b rr
        constructor
        · simp only [retryLoop, h]
          exact Nat.succ_le_succ ih.1
        · simp only [retryLoop, h, ih.2]
          omega

theorem retryLoop_all_fail (l : List Attempt)
    (h : ∀ a ∈ l, succOf a = none) :
    retryLoop l = ⟨none, l.length, l.length - 1⟩ := by
  induction l with
  | nil => simp [retryLoop]
  | cons a rest ih =>
    have ha : succOf a = none := h a (List.mem_cons_self a rest)
    cases rest with
    | nil => simp [retryLoop, ha]
    | cons b rr =>
      have hrest := ih (fun x hx => h x (List.mem_cons_of_mem a hx))
      simp only [retryLoop, ha, hrest, List.length_cons]
      have : (b :: rr).length = rr.length + 1 := rfl
      simp [this]

theorem retryLoop_first_success (l : List Attempt) (k : Nat) (a : Attempt)
    (t : String) (hk : l[k]? = some a) (ha : succOf a = some t)
    (hbefore : ∀ j, j < k → ∀ aj, l[j]? = some aj → succOf aj = none) :
    retryLoop l = ⟨some t, k + 1, k⟩ := by
  induction l generalizing k with
  | nil => simp at hk
  | cons x rest ih =>
    cases k with
    | zero =>
      simp only [List.getElem?_cons_zero, Option.some_inj] at hk
      subst hk
      cases rest with
      | nil => simp [retryLoop, ha]
      | cons b rr => simp [retryLoop, ha]
    | succ k' =>
      have hx : succOf x = none :=
        hbefore 0 (Nat.succ_pos k') x (by simp)
      simp only [List.getElem?_cons_succ] at hk
      have hrest := ih k' hk
        (fun j hj aj hj2 => hbefore (j + 1) (Nat.succ_lt_succ hj) aj
          (by simpa using hj2))
      cases rest with
      | nil => simp at hk
      | cons b rr => simp [retryLoop, hx, hrest]

/-- Claim C5: `_send_request_with_retry` makes at most `max_retries` attempts;
an attempt succeeds exactly when the transport completes and the status is in
the success range (which the code defines as exactly `200`); exceptions and
non-success statuses are retryable failures; every sleep is the one fixed
`time.sleep(retry_delay)` and there are `attempts - 1` of them (none after
the final attempt, no backoff); on total failure the function returns `None`
instead of raising (the model is total).  If the first success is attempt `k`
(0-based), the call returns its text after `k + 1` attempts and `k` sleeps. -/
theorem send_request_with_retry_contract (o : Nat → Attempt) (m : Nat) :
    (sendRequestWithRetry o m).attempts ≤ m ∧
    (sendRequestWithRetry o m).sleeps = (sendRequestWithRetry o m).attempts - 1 ∧
    (∀ s t, succOf (Attempt.resp s t) = some t ↔ s = 200) ∧
    (∀ s t, s ≠ 200 → succOf (Attempt.resp s t) = none) ∧
    succOf Attempt.exn = none ∧
    ((∀ k, k < m → succOf (o k) = none) →
      sendRequestWithRetry o m = ⟨none, m, m - 1⟩) ∧
    (∀ k t, k < m → (∀ j, j < k → succOf (o j) = none) →
      succOf (o k) = some t →
      sendRequestWithRetry o m = ⟨some t, k + 1, k⟩) := by
  refine ⟨?_, ?_, ?_, ?_, rfl, ?_, ?_⟩
  · simpa [sendRequestWithRetry] using
      (retryLoop_bounds ((List.range m).map o)).1
  · exact (retryLoop_bounds ((List.range m).map o)).2
  · intro s t
    constructor
    · intro h
      by_contra hne
      simp [succOf, hne] at h
    · intro h; simp [succOf, h]
  · intro s t h; simp [succOf, h]
  · intro h
    have := retryLoop_all_fail ((List.range m).map o) (by
      intro a hmem
      rcases List.mem_map.mp hmem with ⟨j, hj, rfl⟩
      exact h j (List.mem_range.mp hj))
    simpa [sendRequestWithRetry] using this
  · intro k t hk hbefore hsucc
    have hget : ((List.range m).map o)[k]? = some (o k) := by
      simp [List.getElem?_map, List.getElem?_range, hk]
    have := retryLoop_first_success ((List.range m).map o) k (o k) t hget hsucc
      (by
        intro j hj aj hj2
        have hjm : j < m := lt_trans hj hk
        simp [List.getElem?_map, List.getElem?_range, hjm] at hj2
        exact hj2 ▸ hbefore j hj)
    simpa [sendRequestWithRetry] using this

/-- Witness for C5 at a concrete oracle: failures at attempts 0 and 1, success
with status 200 at attempt 2, `max_retries = 3`. -/
theorem send_request_with_retry_contract_witness :
    sendRequestWithRetry
      (fun k => if k == 2 then Attempt.resp 200 "ok" else Attempt.resp 500 "no")
      3 = ⟨some "ok", 3, 2⟩ :=
  (send_request_with_retry_contract
      (fun k => if k == 2 then Attempt.resp 200 "ok" else Attempt.resp 500 "no")
      3).2.2.2.2.2.2 2 "ok" (by decide)
    (by intro j hj; interval_cases j <;> decide) (by decide)

/-! ### English-text heuristic lemmas -/

theorem punct_not_control :
    ∀ c ∈ englishPunct.toList,
      (c.toNat == 10 || c.toNat == 9 || c.toNat == 13) = false := by
  decide

theorem letter_engKeep (c : Char) (h : isAsciiLetter c = true) :
    engKeep c = true := by
  simp only [isAsciiLetter, Bool.or_eq_true, Bool.and_eq_true,
    decide_eq_true_eq] at h
  simp only [engKeep, Bool.not_eq_true', Bool.or_eq_false_iff,
    beq_eq_false_iff_ne, ne_eq]
  omega

theorem letter_digit_engKeep (c : Char)
    (h : (isAsciiLetter c || isAsciiDigit c) = true) : engKeep c = true := by
  rcases Bool.or_eq_true_iff.mp h with h | h
  · exact letter_engKeep c h
  · simp only [isAsciiDigit, Bool.and_eq_true, decide_eq_true_eq] at h
    simp only [engKeep, Bool.not_eq_true', Bool.or_eq_false_iff,
      beq_eq_false_iff_ne, ne_eq]
    omega

theorem contains_engKeep (c : Char)
    (h : englishPunct.toList.contains c = true) : engKeep c = true := by
  have hmem : c ∈ englishPunct.toList := by simpa using h
  simp [engKeep, punct_not_control c hmem]

theorem engCounts_fold (l : List Char) (a b : Nat) :
    l.foldl
      (fun acc c =>
        if isAsciiLetter c || isAsciiDigit c then (acc.1 + 1, acc.2 + 1)
        else if englishPunct.toList.contains c then (acc.1 + 1, acc.2 + 1)
        else if c.toNat == 10 || c.toNat == 9 || c.toNat == 13 then acc
        else (acc.1, acc.2 + 1))
      (a, b) =
    (a + (l.filter engKeep).countP engGood,
     b + (l.filter engKeep).length) := by
  induction l generalizing a b with
  | nil => simp
  | cons c rest ih =>
    by_cases h1 : (isAsciiLetter c || isAsciiDigit c) = true
    · have hk : engKeep c = true := letter_digit_engKeep c h1
      have hg : engGood c = true := by
        simp only [engGood, Bool.or_eq_true_iff]
        exact Or.inl (Bool.or_eq_true_iff.mp h1)
      simp only [List.foldl_cons, h1, if_true, ih, List.filter_cons, hk,
        if_true, List.countP_cons, hg, if_true, List.length_cons,
        Prod.mk.injEq]
      omega
    · by_cases h2 : englishPunct.toList.contains c = true
      · have hk : engKeep c = true := contains_engKeep c h2
        have hg : engGood c = true := by
          simp only [engGood, Bool.or_eq_true_iff]
          exact Or.inr h2
        simp only [List.foldl_cons, h1, Bool.false_eq_true, if_false, h2,
          if_true, ih, List.filter_cons, hk, if_true, List.countP_cons, hg,
          List.length_cons, Prod.mk.injEq]
        omega
      · by_cases h3 : (c.toNat == 10 || c.toNat == 9 || c.toNat == 13) = true
        · have hk : engKeep c = false := by simp [engKeep, h3]
          simp only [List.foldl_cons, h1, Bool.false_eq_true, if_false, h2,
            h3, if_true, ih, List.filter_cons, hk, Bool.false_eq_true,
            if_false]
        · have hk : engKeep c = true := by
            simp only [engKeep, Bool.not_eq_true']
            exact Bool.not_eq_true _ ▸ (by simpa using h3)
          have hg : engGood c = false := by
            simp only [engGood, Bool.or_eq_false_iff]
            exact ⟨by simpa using h1, by simpa using h2⟩
          simp only [List.foldl_cons, h1, Bool.false_eq_true, if_false, h2,
            h3, if_false, ih, List.filter_cons, hk, if_true,
            List.countP_cons, hg, Bool.false_eq_true, if_false,
            List.length_cons, Prod.mk.injEq]
          omega

theorem engCounts_eq (text : String) :
    engCounts text =
      ((text.toList.filter engKeep).countP engGood,
       (text.toList.filter engKeep).length) := by
  have := engCounts_fold text.toList 0 0
  simpa [engCounts] using this

/-- Claim C10: `is_english_text` returns `False` when the text is blank after
stripping, contains a CJK character in `U+4E00`–`U+9FFF`, or contains no
ASCII letter; otherwise it returns `True` iff at least 70% of the characters
other than newline, tab and carriage return are ASCII letters, ASCII digits,
or members of the literal punctuation set — i.e. it coincides with the
independent spec-side reformulation `isEnglishSpec`. -/
theorem is_english_text_matches_spec (text : String) :
    is_english_text text = isEnglishSpec text := by
  unfold is_english_text isEnglishTextLogic isEnglishSpec
  cases hb : (pyStrip text).isEmpty with
  | true => simp only [hb, if_true, Bool.true_or, if_true]
  | false =>
    cases hc :
        text.toList.any (fun c => 0x4e00 ≤ c.toNat && c.toNat ≤ 0x9fff) with
    | true => simp only [hb, hc, Bool.false_eq_true, if_false, if_true,
        Bool.false_or, Bool.true_or, if_true]
    | false =>
      cases hl : text.toList.any (fun c => isAsciiLetter c) with
      | false =>
        simp only [hb, hc, hl, Bool.false_eq_true, if_false, Bool.not_false,
          if_true, Bool.false_or, Bool.or_true, if_true]
      | true =>
        rcases List.any_eq_true.mp hl with ⟨c, hcmem, hcl⟩
        have hmemf : c ∈ text.toList.filter engKeep :=
          List.mem_filter.mpr ⟨hcmem, letter_engKeep c hcl⟩
        have hlen : ((text.toList.filter engKeep).length == 0) = false := by
          simp only [beq_eq_false_iff_ne, ne_eq]
          intro h0
          exact List.ne_nil_of_mem hmemf (List.length_eq_zero.mp h0)
        simp only [hb, hc, hl, Bool.false_eq_true, if_false, Bool.not_true,
          Bool.false_or, Bool.or_false, engCounts_eq, hlen]

/-! ### Batching lemmas -/

theorem chunks_length {α : Type} (l : List α) (b : Nat) :
    (chunks l b).length = (l.length + b - 1) / b := by
  simp [chunks]

theorem chunks_getElem {α : Type} (l : List α) (b j : Nat)
    (hj : j < (chunks l b).length) :
    (chunks l b)[j]? = some ((l.drop (j * b)).take b) := by
  rw [chunks_length] at hj
  simp [chunks, List.getElem?_map, List.getElem?_range, hj]

theorem chunks_mem_length {α : Type} (l : List α) (b : Nat) (m : List α)
    (hm : m ∈ chunks l b) : m.length ≤ b := by
  simp only [chunks, List.mem_map] at hm
  rcases hm with ⟨j, _, rfl⟩
  simp

theorem div_lt_numBatches (n b i : Nat) (hb : 1 ≤ b) (hi : i < n) :
    i / b < (n + b - 1) / b := by
  have hn : 1 ≤ n := Nat.one_le_iff_ne_zero.mpr (by omega)
  have h1 : n + b - 1 = (n - 1) + b := by omega
  have h2 : ((n - 1) + b) / b = (n - 1) / b + 1 :=
    Nat.add_div_right (n - 1) (by omega)
  have h3 : i / b ≤ (n - 1) / b := Nat.div_le_div_right (by omega)
  rw [h1, h2]
  omega

theorem chunks_flat {α : Type} (l : List α) (b i : Nat) (hb : 1 ≤ b)
    (hi : i < l.length) :
    ∃ batch, (chunks l b)[i / b]? = some batch ∧
      batch[i % b]? = l[i]? := by
  have hlt : i / b < (chunks l b).length := by
    rw [chunks_length]
    exact div_lt_numBatches l.length b i hb hi
  refine ⟨(l.drop (i / b * b)).take b, chunks_getElem l b (i / b) hlt, ?_⟩
  have hmod : i % b < b := Nat.mod_lt i (by omega)
  rw [List.getElem?_take_of_lt hmod, List.getElem?_drop]
  congr 1
  rw [Nat.mul_comm (i / b) b]
  exact Nat.div_add_mod i b

/-- Claim C4: `process_batches` partitions its `N` inputs into `⌈N/B⌉`
batches (`⌈N/B⌉ = (N + B - 1) / B` for `B ≥ 1`), batch `j` being exactly the
contiguous input slice starting at `j·B` of length at most `B`, in input
order; an empty input yields zero batches and an immediately empty result;
and 45 items with `batch_size = 20` give 3 batches of sizes 20, 20, 5. -/
theorem process_batches_batching {α : Type} (l : List α) (b : Nat)
    (cfg : ClientCfg α) (st : ClientState) (order : List Nat) (hb : 1 ≤ b) :
    (chunks l b).length = (l.length + b - 1) / b ∧
    (∀ j, j < (chunks l b).length →
      (chunks l b)[j]? = some ((l.drop (j * b)).take b)) ∧
    chunks ([] : List α) b = [] ∧
    process_batches cfg st ([] : List α) order = ⟨[], st, []⟩ ∧
    (chunks (List.range 45) 20).map List.length = [20, 20, 5] := by
  refine ⟨chunks_length l b, fun j hj => chunks_getElem l b j hj, ?_, ?_, ?_⟩
  · have h0 : (0 + b - 1) / b = 0 := Nat.div_eq_of_lt (by omega)
    simp only [chunks, List.length_nil, h0, List.range_zero, List.map_nil]
  · simp [process_batches]
  · decide

/-- Witness for C4 at concrete inputs (`N = 5`, `B = 2`). -/
theorem process_batches_batching_witness :
    (chunks (List.range 5) 2).length = (5 + 2 - 1) / 2 ∧
    (∀ j, j < (chunks (List.range 5) 2).length →
      (chunks (List.range 5) 2)[j]? =
        some (((List.range 5).drop (j * 2)).take 2)) ∧
    chunks ([] : List Nat) 2 = [] ∧
    process_batches
      { transport := fun _ => none, promptCb := fun _ => "",
        resultCb := fun _ _ => [], cacheKeyCb := none, batch_size := 2 }
      initState ([] : List Nat) [] = ⟨[], initState, []⟩ ∧
    (chunks (List.range 45) 20).map List.length = [20, 20, 5] :=
  process_batches_batching (List.range 5) 2
    { transport := fun _ => none, promptCb := fun _ => "",
      resultCb := fun _ _ => [], cacheKeyCb := none, batch_size := 2 }
    initState [] (by decide)

/-! ### Lookup membership lemmas -/

theorem pylookup_mem {κ ν : Type} [BEq κ] [LawfulBEq κ]
    (d : List (κ × ν)) (k : κ) (v : ν) (h : pylookup d k = some v) :
    (k, v) ∈ d := by
  induction d with
  | nil => simp [pylookup] at h
  | cons p rest ih =>
    rw [pylookup_cons] at h
    by_cases hk : p.1 == k
    · simp only [hk, if_true, Option.some_inj] at h
      have : p = (k, v) := by
        cases p
        simp_all
      exact this ▸ List.mem_cons_self _ _
    · simp only [hk, Bool.false_eq_true, if_false] at h
      exact List.mem_cons_of_mem _ (ih h)

theorem pylookup_none_forall {κ ν : Type} [BEq κ] [LawfulBEq κ]
    (d : List (κ × ν)) (k : κ) (h : pylookup d k = none) :
    ∀ p ∈ d, p.1 ≠ k := by
  induction d with
  | nil => simp
  | cons p rest ih =>
    rw [pylookup_cons] at h
    by_cases hk : p.1 == k
    · simp [hk] at h
    · intro q hq
      rcases List.mem_cons.mp hq with rfl | hq
      · simpa using hk
      · simp only [hk, Bool.false_eq_true, if_false] at h
        exact ih h q hq

/-! ### Cache-split lemmas -/

theorem cacheSplit_lengths {α : Type} (f : α → String)
    (cache : List (String × String)) (i : Nat) (items : List α) :
    (cacheSplit f cache i items).2.1.length =
      (cacheSplit f cache i items).2.2.length := by
  induction items generalizing i with
  | nil => simp [cacheSplit]
  | cons it rest ih =>
    simp only [cacheSplit]
    cases h : pylookup cache (f it) with
    | some v => simpa using ih (i + 1)
    | none => simpa using ih (i + 1)

theorem cacheSplit_rix_bound {α : Type} (f : α → String)
    (cache : List (String × String)) (i : Nat) (items : List α) :
    ∀ x ∈ (cacheSplit f cache i items).2.2, i ≤ x ∧ x < i + items.length := by
  induction items generalizing i with
  | nil => simp [cacheSplit]
  | cons it rest ih =>
    intro x hx
    simp only [cacheSplit] at hx
    cases h : pylookup cache (f it) with
    | some v =>
      simp only [h] at hx
      have := ih (i + 1) x hx
      simp only [List.length_cons]
      omega
    | none =>
      simp only [h, List.mem_cons] at hx
      rcases hx with rfl | hx
      · simp only [List.length_cons]; omega
      · have := ih (i + 1) x hx
        simp only [List.length_cons]
        omega

theorem cacheSplit_cached_bound {α : Type} (f : α → String)
    (cache : List (String × String)) (i : Nat) (items : List α) :
    ∀ p ∈ (cacheSplit f cache i items).1, i ≤ p.1 ∧ p.1 < i + items.length := by
  induction items generalizing i with
  | nil => simp [cacheSplit]
  | cons it rest ih =>
    intro p hp
    simp only [cacheSplit] at hp
    cases h : pylookup cache (f it) with
    | some v =>
      simp only [h, List.mem_cons] at hp
      rcases hp with rfl | hp
      · simp only [List.length_cons]; omega
      · have := ih (i + 1) p hp
        simp only [List.length_cons]
        omega
    | none =>
      simp only [h] at hp
      have := ih (i + 1) p hp
      simp only [List.length_cons]
      omega

theorem cacheSplit_cached_nodup {α : Type} (f : α → String)
    (cache : List (String × String)) (i : Nat) (items : List α) :
    (((cacheSplit f cache i items).1).map Prod.fst).Nodup := by
  induction items generalizing i with
  | nil => simp [cacheSplit]
  | cons it rest ih =>
    simp only [cacheSplit]
    cases h : pylookup cache (f it) with
    | some v =>
      simp only [List.map_cons, List.nodup_cons]
      refine ⟨fun hmem => ?_, ih (i + 1)⟩
      rcases List.mem_map.mp hmem with ⟨q, hq, hq1⟩
      have := (cacheSplit_cached_bound f cache (i + 1) rest q hq).1
      omega
    | none => exact ih (i + 1)

theorem cacheSplit_rix_nodup {α : Type} (f : α → String)
    (cache : List (String × String)) (i : Nat) (items : List α) :
    ((cacheSplit f cache i items).2.2).Nodup := by
  induction items generalizing i with
  | nil => simp [cacheSplit]
  | cons it rest ih =>
    simp only [cacheSplit]
    cases h : pylookup cache (f it) with
    | some v => exact ih (i + 1)
    | none =>
      simp only [List.nodup_cons]
      refine ⟨fun hmem => ?_, ih (i + 1)⟩
      have := (cacheSplit_rix_bound f cache (i + 1) rest i hmem).1
      omega

theorem cacheSplit_all_miss {α : Type} (f : α → String)
    (cache : List (String × String)) (i : Nat) (items : List α)
    (h : ∀ it ∈ items, pylookup cache (f it) = none) :
    cacheSplit f cache i items = ([], items, List.range' i items.length) := by
  induction items generalizing i with
  | nil => simp [cacheSplit]
  | cons it rest ih =>
    have hh : pylookup cache (f it) = none := h it (List.mem_cons_self _ _)
    simp only [cacheSplit, ih (i + 1) (fun x hx => h x (List.mem_cons_of_mem _ hx)),
      hh, List.length_cons, List.range'_succ]

theorem cacheSplit_all_hit {α : Type} (f : α → String)
    (cache : List (String × String)) (i : Nat) (items : List α)
    (h : ∀ it ∈ items, (pylookup cache (f it)).isSome = true) :
    (cacheSplit f cache i items).2.1 = [] ∧
      (cacheSplit f cache i items).2.2 = [] := by
  induction items generalizing i with
  | nil => simp [cacheSplit]
  | cons it rest ih =>
    have hh := h it (List.mem_cons_self _ _)
    cases hlk : pylookup cache (f it) with
    | none => rw [hlk] at hh; simp at hh
    | some v =>
      simp only [cacheSplit, hlk]
      exact ih (i + 1) (fun x hx => h x (List.mem_cons_of_mem _ hx))

theorem cacheSplit_remaining_miss {α : Type} (f : α → String)
    (cache : List (String × String)) (i : Nat) (items : List α) :
    ∀ it ∈ (cacheSplit f cache i items).2.1,
      pylookup cache (f it) = none ∧ it ∈ items := by
  induction items generalizing i with
  | nil => simp [cacheSplit]
  | cons x rest ih =>
    intro it hit
    simp only [cacheSplit] at hit
    cases h : pylookup cache (f x) with
    | some v =>
      simp only [h] at hit
      have := ih (i + 1) it hit
      exact ⟨this.1, List.mem_cons_of_mem _ this.2⟩
    | none =>
      simp only [h, List.mem_cons] at hit
      rcases hit with rfl | hit
      · exact ⟨h, List.mem_cons_self _ _⟩
      · have := ih (i + 1) it hit
        exact ⟨this.1, List.mem_cons_of_mem _ this.2⟩

theorem pylookup_none_intro {κ ν : Type} [BEq κ] [LawfulBEq κ]
    (d : List (κ × ν)) (k : κ) (h : ∀ p ∈ d, p.1 ≠ k) :
    pylookup d k = none := by
  induction d with
  | nil => rfl
  | cons p rest ih =>
    rw [pylookup_cons]
    have hp : (p.1 == k) = false := by
      simpa using h p (List.mem_cons_self _ _)
    simp only [hp, Bool.false_eq_true, if_false]
    exact ih (fun q hq => h q (List.mem_cons_of_mem _ hq))

/-! ### Failure-path fold lemmas (the `all_results[idx] = None` loop) -/

theorem failFold_lookup_notmem (rix : List Nat)
    (acc : List (Nat × Option String)) (x : Nat) (hx : x ∉ rix) :
    pylookup (rix.foldl (fun a idx => pyinsert a idx none) acc) x =
      pylookup acc x := by
  induction rix generalizing acc with
  | nil => rfl
  | cons y rest ih =>
    have hxy : x ≠ y := fun h => hx (h ▸ List.mem_cons_self y rest)
    have hxr : x ∉ rest := fun h => hx (List.mem_cons_of_mem _ h)
    simp only [List.foldl_cons]
    rw [ih _ hxr, pyinsert_lookup_ne _ _ _ _ hxy]

theorem failFold_lookup_mem (rix : List Nat)
    (acc : List (Nat × Option String)) (x : Nat) (hx : x ∈ rix) :
    pylookup (rix.foldl (fun a idx => pyinsert a idx none) acc) x =
      some none := by
  induction rix generalizing acc with
  | nil => simp at hx
  | cons y rest ih =>
    simp only [List.foldl_cons]
    by_cases hxr : x ∈ rest
    · exact ih _ hxr
    · have hxy : x = y := by
        rcases List.mem_cons.mp hx with h | h
        · exact h
        · exact absurd h hxr
      subst hxy
      rw [failFold_lookup_notmem rest _ x hxr, pyinsert_lookup_self]

theorem failFold_keys_nodup (rix : List Nat)
    (acc : List (Nat × Option String)) (hacc : (acc.map Prod.fst).Nodup) :
    (((rix.foldl (fun a idx => pyinsert a idx none) acc)).map Prod.fst).Nodup := by
  induction rix generalizing acc with
  | nil => exact hacc
  | cons y rest ih =>
    simp only [List.foldl_cons]
    exact ih _ (pyinsert_keys_nodup _ _ _ hacc)

theorem failFold_keys_bound (rix : List Nat)
    (acc : List (Nat × Option String)) (n : Nat)
    (hacc : ∀ p ∈ acc, p.1 < n) (hrix : ∀ x ∈ rix, x < n) :
    ∀ p ∈ rix.foldl (fun a idx => pyinsert a idx none) acc, p.1 < n := by
  induction rix generalizing acc with
  | nil => exact hacc
  | cons y rest ih =>
    simp only [List.foldl_cons]
    refine ih _ (fun p hp => ?_) (fun x hx => hrix x (List.mem_cons_of_mem _ hx))
    rcases pyinsert_mem _ _ _ p hp with h | h
    · exact hacc p h
    · rw [h]
      exact hrix y (List.mem_cons_self _ _)

theorem failFold_values_none (rix : List Nat)
    (acc : List (Nat × Option String)) (hacc : ∀ p ∈ acc, p.2 = none) :
    ∀ p ∈ rix.foldl (fun a idx => pyinsert a idx none) acc, p.2 = none := by
  induction rix generalizing acc with
  | nil => exact hacc
  | cons y rest ih =>
    simp only [List.foldl_cons]
    refine ih _ (fun p hp => ?_)
    rcases pyinsert_mem _ _ _ p hp with h | h
    · exact hacc p h
    · rw [h]

/-! ### Result-placement lemmas (`writeBatch` / `placeResults`) -/

theorem writeBatch_length (m : List (Nat × Option String))
    (arr : List (Option String)) (start : Nat) :
    (writeBatch arr start m).length = arr.length := by
  induction m generalizing arr with
  | nil => rfl
  | cons p rest ih =>
    simp only [writeBatch, List.foldl_cons]
    by_cases h : start + p.1 < arr.length
    · simp only [h, if_true]
      rw [show (List.foldl _ (arr.set (start + p.1) p.2) rest) =
        writeBatch (arr.set (start + p.1) p.2) start rest from rfl]
      rw [ih]
      exact List.length_set arr _ _
    · simp only [h, if_false]
      exact ih arr

theorem writeBatch_getElem_notkey (m : List (Nat × Option String))
    (arr : List (Option String)) (start j : Nat)
    (h : ∀ p ∈ m, start + p.1 ≠ j) :
    (writeBatch arr start m)[j]? = arr[j]? := by
  induction m generalizing arr with
  | nil => rfl
  | cons p rest ih =>
    simp only [writeBatch, List.foldl_cons]
    by_cases hlt : start + p.1 < arr.length
    · simp only [hlt, if_true]
      rw [show (List.foldl _ (arr.set (start + p.1) p.2) rest) =
        writeBatch (arr.set (start + p.1) p.2) start rest from rfl]
      rw [ih _ (fun q hq => h q (List.mem_cons_of_mem _ hq))]
      exact List.getElem?_set_ne (h p (List.mem_cons_self _ _))
    · simp only [hlt, if_false]
      exact ih arr (fun q hq => h q (List.mem_cons_of_mem _ hq))

theorem writeBatch_getElem_key (m : List (Nat × Option String))
    (arr : List (Option String)) (start k : Nat) (v : Option String)
    (hnd : (m.map Prod.fst).Nodup) (hmem : (k, v) ∈ m)
    (hlt : start + k < arr.length) :
    (writeBatch arr start m)[start + k]? = some v := by
  induction m generalizing arr with
  | nil => simp at hmem
  | cons p rest ih =>
    simp only [List.map_cons, List.nodup_cons] at hnd
    rcases List.mem_cons.mp hmem with rfl | hmem
    · simp only [writeBatch, List.foldl_cons, hlt, if_true]
      rw [show (List.foldl _ (arr.set (start + k) v) rest) =
        writeBatch (arr.set (start + k) v) start rest from rfl]
      have hnk : ∀ q ∈ rest, start + q.1 ≠ start + k := by
        intro q hq habs
        exact hnd.1 (List.mem_map.mpr ⟨q, hq, by omega⟩)
      rw [writeBatch_getElem_notkey rest _ start _ hnk]
      simp [List.getElem?_set_self, List.length_set, hlt]
    · have hpk : p.1 ≠ k := by
        intro habs
        exact hnd.1 (List.mem_map.mpr ⟨(k, v), hmem, habs.symm⟩)
      simp only [writeBatch, List.foldl_cons]
      by_cases hplt : start + p.1 < arr.length
      · simp only [hplt, if_true]
        rw [show (List.foldl _ (arr.set (start + p.1) p.2) rest) =
          writeBatch (arr.set (start + p.1) p.2) start rest from rfl]
        exact ih _ hnd.2 hmem (by rwa [List.length_set])
      · simp only [hplt, if_false]
        exact ih arr hnd.2 hmem hlt

theorem placeResults_length (maps : List (List (Nat × Option String)))
    (bs : Nat) (order : List Nat) (arr : List (Option String)) :
    (placeResults maps bs order arr).length = arr.length := by
  induction order generalizing arr with
  | nil => rfl
  | cons bidx rest ih =>
    simp only [placeResults, List.foldl_cons]
    cases h : maps[bidx]? with
    | none =>
      simp only [h]
      exact ih arr
    | some m =>
      simp only [h]
      rw [show (List.foldl _ (writeBatch arr (bidx * bs) m) rest) =
        placeResults maps bs rest (writeBatch arr (bidx * bs) m) from rfl]
      rw [ih, writeBatch_length]

theorem placeResults_getElem_nowrite (maps : List (List (Nat × Option String)))
    (bs : Nat) (order : List Nat) (arr : List (Option String)) (j : Nat)
    (h : ∀ bidx ∈ order, ∀ m, maps[bidx]? = some m →
      ∀ p ∈ m, bidx * bs + p.1 ≠ j) :
    (placeResults maps bs order arr)[j]? = arr[j]? := by
  induction order generalizing arr with
  | nil => rfl
  | cons bidx rest ih =>
    simp only [placeResults, List.foldl_cons]
    cases hm : maps[bidx]? with
    | none =>
      simp only [hm]
      exact ih arr (fun b hb => h b (List.mem_cons_of_mem _ hb))
    | some m =>
      simp only [hm]
      rw [show (List.foldl _ (writeBatch arr (bidx * bs) m) rest) =
        placeResults maps bs rest (writeBatch arr (bidx * bs) m) from rfl]
      rw [ih _ (fun b hb => h b (List.mem_cons_of_mem _ hb))]
      exact writeBatch_getElem_notkey m arr _ j
        (h bidx (List.mem_cons_self _ _) m hm)

theorem placeResults_getElem_write (maps : List (List (Nat × Option String)))
    (bs : Nat) (order : List Nat) (arr : List (Option String))
    (bidx k : Nat) (m : List (Nat × Option String)) (v : Option String)
    (hnd : order.Nodup) (hin : bidx ∈ order) (hm : maps[bidx]? = some m)
    (hmk : (m.map Prod.fst).Nodup) (hkv : (k, v) ∈ m)
    (hlt : bidx * bs + k < arr.length)
    (hothers : ∀ b ∈ order, b ≠ bidx → ∀ m', maps[b]? = some m' →
      ∀ p ∈ m', b * bs + p.1 ≠ bidx * bs + k) :
    (placeResults maps bs order arr)[bidx * bs + k]? = some v := by
  induction order generalizing arr with
  | nil => simp at hin
  | cons b0 rest ih =>
    simp only [List.nodup_cons] at hnd
    rcases List.mem_cons.mp hin with rfl | hin
    · simp only [placeResults, List.foldl_cons, hm]
      rw [show (List.foldl _ (writeBatch arr (bidx * bs) m) rest) =
        placeResults maps bs rest (writeBatch arr (bidx * bs) m) from rfl]
      have hnr : ∀ b ∈ rest, ∀ m', maps[b]? = some m' →
          ∀ p ∈ m', b * bs + p.1 ≠ bidx * bs + k := by
        intro b hb m' hm' p hp
        have hbne : b ≠ bidx := fun habs => hnd.1 (habs ▸ hb)
        exact hothers b (List.mem_cons_of_mem _ hb) hbne m' hm' p hp
      rw [placeResults_getElem_nowrite maps bs rest _ _ hnr]
      exact writeBatch_getElem_key m arr (bidx * bs) k v hmk hkv hlt
    · have hb0 : b0 ≠ bidx := fun habs => hnd.1 (habs ▸ hin)
      simp only [placeResults, List.foldl_cons]
      cases hm0 : maps[b0]? with
      | none =>
        simp only [hm0]
        exact ih arr hnd.2 hin hlt
          (fun b hb hbne => hothers b (List.mem_cons_of_mem _ hb) hbne)
      | some m0 =>
        simp only [hm0]
        rw [show (List.foldl _ (writeBatch arr (b0 * bs) m0) rest) =
          placeResults maps bs rest (writeBatch arr (b0 * bs) m0) from rfl]
        refine ih _ hnd.2 hin ?_
          (fun b hb hbne => hothers b (List.mem_cons_of_mem _ hb) hbne)
        rw [writeBatch_length]
        exact hlt

theorem cacheSplit_index {α : Type} (f : α → String)
    (cache : List (String × String)) (i : Nat) (items : List α) :
    ∀ j it, items[j]? = some it →
      pylookup (cacheSplit f cache i items).1 (i + j) =
        (pylookup cache (f it)).map some ∧
      ((pylookup cache (f it)).isSome = true →
        (i + j) ∉ (cacheSplit f cache i items).2.2) ∧
      (pylookup cache (f it) = none →
        (i + j) ∈ (cacheSplit f cache i items).2.2) := by
  induction items generalizing i with
  | nil => intro j it h; simp at h
  | cons x rest ih =>
    intro j it hj
    cases j with
    | zero =>
      simp only [List.getElem?_cons_zero, Option.some_inj] at hj
      subst hj
      cases h : pylookup cache (f x) with
      | some v =>
        refine ⟨?_, ?_, by simp [h]⟩
        · simp only [cacheSplit, h, Nat.add_zero, pylookup_cons]
          simp
        · intro _
          simp only [cacheSplit, h, Nat.add_zero]
          intro hmem
          have := (cacheSplit_rix_bound f cache (i + 1) rest i hmem).1
          omega
      | none =>
        refine ⟨?_, by simp [h], ?_⟩
        · simp only [cacheSplit, h, Nat.add_zero, Option.map_none']
          refine pylookup_none_intro _ _ (fun p hp => ?_)
          have := (cacheSplit_cached_bound f cache (i + 1) rest p hp).1
          omega
        · intro _
          simp only [cacheSplit, h, Nat.add_zero]
          exact List.mem_cons_self _ _
    | succ j' =>
      simp only [List.getElem?_cons_succ] at hj
      have hadd : i + (j' + 1) = (i + 1) + j' := by omega
      have IH := ih (i + 1) j' it hj
      cases h : pylookup cache (f x) with
      | some v =>
        refine ⟨?_, ?_, ?_⟩
        · simp only [cacheSplit, h, hadd, pylookup_cons]
          have hne : (i == (i + 1) + j') = false := by
            simp only [beq_eq_false_iff_ne, ne_eq]; omega
          simp only [hne, Bool.false_eq_true, if_false]
          exact IH.1
        · intro hs
          simp only [cacheSplit, h, hadd]
          exact IH.2.1 hs
        · intro hs
          simp only [cacheSplit, h, hadd]
          exact IH.2.2 hs
      | none =>
        refine ⟨?_, ?_, ?_⟩
        · simp only [cacheSplit, h, hadd]
          exact IH.1
        · intro hs
          simp only [cacheSplit, h, hadd]
          intro hmem
          rcases List.mem_cons.mp hmem with habs | hmem
          · omega
          · exact IH.2.1 hs hmem
        · intro hs
          simp only [cacheSplit, h, hadd]
          exact List.mem_cons_of_mem _ (IH.2.2 hs)

/-! ### Merge-loop lemmas (the `batch_results.items()` loop) -/

theorem mergeResults_nil {α : Type} (cfg : ClientCfg α) (ri : List α)
    (rix : List Nat) (acc0 : List (Nat × Option String)) (st0 : ClientState) :
    mergeResults cfg ri rix [] acc0 st0 = (acc0, st0) := rfl

theorem mergeResults_cons_skip {α : Type} (cfg : ClientCfg α) (ri : List α)
    (rix : List Nat) (p : Nat × Option String)
    (rest : List (Nat × Option String)) (acc0 : List (Nat × Option String))
    (st0 : ClientState)
    (hskip : rix[p.1]? = none ∨ ri[p.1]? = none ∨ p.2 = none) :
    mergeResults cfg ri rix (p :: rest) acc0 st0 =
      mergeResults cfg ri rix rest acc0 st0 := by
  simp only [mergeResults, List.foldl_cons]
  rcases hskip with h | h | h
  · cases h2 : ri[p.1]? <;> simp [h, h2]
  · cases h1 : rix[p.1]? <;> simp [h, h1]
  · cases h1 : rix[p.1]? <;> cases h2 : ri[p.1]? <;> simp [h, h1, h2]

theorem mergeResults_cons_write {α : Type} (cfg : ClientCfg α) (ri : List α)
    (rix : List Nat) (p : Nat × Option String)
    (rest : List (Nat × Option String)) (acc0 : List (Nat × Option String))
    (st0 : ClientState) (oi : Nat) (item : α) (r : String) (keyCb : α → String)
    (hoi : rix[p.1]? = some oi) (hitem : ri[p.1]? = some item)
    (hv : p.2 = some r) (hcb : cfg.cacheKeyCb = some keyCb) :
    mergeResults cfg ri rix (p :: rest) acc0 st0 =
      mergeResults cfg ri rix rest (pyinsert acc0 oi (some r))
        { st0 with cache := pyinsert st0.cache (keyCb item) r,
                   writes := st0.writes ++ [(keyCb item, r)] } := by
  simp only [mergeResults, List.foldl_cons, hoi, hitem, hv, hcb]

theorem mergeResults_cons_write_nocb {α : Type} (cfg : ClientCfg α)
    (ri : List α) (rix : List Nat) (p : Nat × Option String)
    (rest : List (Nat × Option String)) (acc0 : List (Nat × Option String))
    (st0 : ClientState) (oi : Nat) (item : α) (r : String)
    (hoi : rix[p.1]? = some oi) (hitem : ri[p.1]? = some item)
    (hv : p.2 = some r) (hcb : cfg.cacheKeyCb = none) :
    mergeResults cfg ri rix (p :: rest) acc0 st0 =
      mergeResults cfg ri rix rest (pyinsert acc0 oi (some r)) st0 := by
  simp only [mergeResults, List.foldl_cons, hoi, hitem, hv, hcb]

theorem mergeResults_lookup_notarget {α : Type} (cfg : ClientCfg α)
    (ri : List α) (rix : List Nat) (parsed : List (Nat × Option String))
    (acc0 : List (Nat × Option String)) (st0 : ClientState) (j : Nat)
    (h : ∀ p ∈ parsed, ∀ oi, rix[p.1]? = some oi → oi ≠ j) :
    pylookup (mergeResults cfg ri rix parsed acc0 st0).1 j =
      pylookup acc0 j := by
  induction parsed generalizing acc0 st0 with
  | nil => rw [mergeResults_nil]
  | cons p rest ih =>
    have hrest : ∀ q ∈ rest, ∀ oi, rix[q.1]? = some oi → oi ≠ j :=
      fun q hq => h q (List.mem_cons_of_mem _ hq)
    cases h1 : rix[p.1]? with
    | none => rw [mergeResults_cons_skip _ _ _ _ _ _ _ (Or.inl h1)]; exact ih _ _ hrest
    | some oi =>
      cases h2 : ri[p.1]? with
      | none =>
        rw [mergeResults_cons_skip _ _ _ _ _ _ _ (Or.inr (Or.inl h2))]
        exact ih _ _ hrest
      | some item =>
        cases h3 : p.2 with
        | none =>
          rw [mergeResults_cons_skip _ _ _ _ _ _ _ (Or.inr (Or.inr h3))]
          exact ih _ _ hrest
        | some r =>
          have hne : oi ≠ j := h p (List.mem_cons_self _ _) oi h1
          cases hcb : cfg.cacheKeyCb with
          | some keyCb =>
            rw [mergeResults_cons_write cfg ri rix p rest acc0 st0 oi item r
              keyCb h1 h2 h3 hcb, ih _ _ hrest,
              pyinsert_lookup_ne _ _ _ _ (fun hh => hne hh.symm)]
          | none =>
            rw [mergeResults_cons_write_nocb cfg ri rix p rest acc0 st0 oi
              item r h1 h2 h3 hcb, ih _ _ hrest,
              pyinsert_lookup_ne _ _ _ _ (fun hh => hne hh.symm)]

theorem mergeResults_cache_preserved {α : Type} (cfg : ClientCfg α)
    (ri : List α) (rix : List Nat) (parsed : List (Nat × Option String))
    (acc0 : List (Nat × Option String)) (st0 : ClientState) (k : String)
    (h : ∀ p ∈ parsed, ∀ keyCb, cfg.cacheKeyCb = some keyCb →
      ∀ item, ri[p.1]? = some item → keyCb item ≠ k) :
    pylookup (mergeResults cfg ri rix parsed acc0 st0).2.cache k =
      pylookup st0.cache k := by
  induction parsed generalizing acc0 st0 with
  | nil => rw [mergeResults_nil]
  | cons p rest ih =>
    have hrest : ∀ q ∈ rest, ∀ keyCb, cfg.cacheKeyCb = some keyCb →
        ∀ item, ri[q.1]? = some item → keyCb item ≠ k :=
      fun q hq => h q (List.mem_cons_of_mem _ hq)
    cases h1 : rix[p.1]? with
    | none => rw [mergeResults_cons_skip _ _ _ _ _ _ _ (Or.inl h1)]; exact ih _ _ hrest
    | some oi =>
      cases h2 : ri[p.1]? with
      | none =>
        rw [mergeResults_cons_skip _ _ _ _ _ _ _ (Or.inr (Or.inl h2))]
        exact ih _ _ hrest
      | some item =>
        cases h3 : p.2 with
        | none =>
          rw [mergeResults_cons_skip _ _ _ _ _ _ _ (Or.inr (Or.inr h3))]
          exact ih _ _ hrest
        | some r =>
          cases hcb : cfg.cacheKeyCb with
          | some keyCb =>
            have hne : keyCb item ≠ k :=
              h p (List.mem_cons_self _ _) keyCb hcb item h2
            rw [mergeResults_cons_write cfg ri rix p rest acc0 st0 oi item r
              keyCb h1 h2 h3 hcb, ih _ _ hrest]
            exact pyinsert_lookup_ne _ _ _ _ (fun hh => hne hh.symm)
          | none =>
            rw [mergeResults_cons_write_nocb cfg ri rix p rest acc0 st0 oi
              item r h1 h2 h3 hcb]
            exact ih _ _ hrest

theorem mergeResults_writes {α : Type} (cfg : ClientCfg α)
    (ri : List α) (rix : List Nat) (parsed : List (Nat × Option String))
    (acc0 : List (Nat × Option String)) (st0 : ClientState) :
    ∀ w ∈ (mergeResults cfg ri rix parsed acc0 st0).2.writes,
      w ∈ st0.writes ∨ ∃ keyCb item, cfg.cacheKeyCb = some keyCb ∧
        item ∈ ri ∧ w.1 = keyCb item := by
  induction parsed generalizing acc0 st0 with
  | nil => intro w hw; rw [mergeResults_nil] at hw; exact Or.inl hw
  | cons p rest ih =>
    intro w hw
    cases h1 : rix[p.1]? with
    | none =>
      rw [mergeResults_cons_skip _ _ _ _ _ _ _ (Or.inl h1)] at hw
      exact ih _ _ w hw
    | some oi =>
      cases h2 : ri[p.1]? with
      | none =>
        rw [mergeResults_cons_skip _ _ _ _ _ _ _ (Or.inr (Or.inl h2))] at hw
        exact ih _ _ w hw
      | some item =>
        cases h3 : p.2 with
        | none =>
          rw [mergeResults_cons_skip _ _ _ _ _ _ _ (Or.inr (Or.inr h3))] at hw
          exact ih _ _ w hw
        | some r =>
          cases hcb : cfg.cacheKeyCb with
          | some keyCb =>
            simp only [hcb] at ih
            rw [mergeResults_cons_write cfg ri rix p rest acc0 st0 oi item r
              keyCb h1 h2 h3 hcb] at hw
            rcases ih _ _ w hw with hw' | hw'
            · simp only [List.mem_append, List.mem_singleton] at hw'
              rcases hw' with hw' | hw'
              · exact Or.inl hw'
              · refine Or.inr ⟨keyCb, item, rfl, ?_, by rw [hw']⟩
                exact List.getElem?_mem h2
            · exact Or.inr hw'
          | none =>
            simp only [hcb] at ih
            rw [mergeResults_cons_write_nocb cfg ri rix p rest acc0 st0 oi
              item r h1 h2 h3 hcb] at hw
            exact ih _ _ w hw

theorem mergeResults_range_lookup {α : Type} (cfg : ClientCfg α) (b : List α)
    (f : α → String) (hcb : cfg.cacheKeyCb = some f)
    (hinj : ∀ (j1 j2 : Nat) (it1 it2 : α), b[j1]? = some it1 →
      b[j2]? = some it2 → j1 ≠ j2 → f it1 ≠ f it2)
    (parsed : List (Nat × Option String)) (hnd : (parsed.map Prod.fst).Nodup)
    (acc0 : List (Nat × Option String)) (st0 : ClientState)
    (j : Nat) (it : α) (hj : b[j]? = some it) :
    (∀ r, pylookup parsed j = some (some r) →
      pylookup (mergeResults cfg b (List.range b.length) parsed acc0 st0).1 j =
        some (some r) ∧
      pylookup
        (mergeResults cfg b (List.range b.length) parsed acc0 st0).2.cache
        (f it) = some r) ∧
    ((pylookup parsed j = some none ∨ pylookup parsed j = none) →
      pylookup (mergeResults cfg b (List.range b.length) parsed acc0 st0).1 j =
        pylookup acc0 j ∧
      pylookup
        (mergeResults cfg b (List.range b.length) parsed acc0 st0).2.cache
        (f it) = pylookup st0.cache (f it)) := by
  have hjlen : j < b.length := by
    by_contra habs
    rw [List.getElem?_eq_none (by omega)] at hj
    exact Option.noConfusion hj
  induction parsed generalizing acc0 st0 with
  | nil =>
    refine ⟨fun r hr => by simp [pylookup] at hr, fun _ => ?_⟩
    rw [mergeResults_nil]
    exact ⟨rfl, rfl⟩
  | cons p rest ih =>
    obtain ⟨pk, pv⟩ := p
    simp only [List.map_cons, List.nodup_cons] at hnd
    have ihr := ih hnd.2
    cases pv with
    | none =>
      rw [mergeResults_cons_skip _ _ _ _ _ _ _ (Or.inr (Or.inr rfl))]
      by_cases hpj : pk = j
      · subst hpj
        have hrestkey : ∀ q ∈ rest, q.1 ≠ pk := by
          intro q hq habs
          exact hnd.1 (List.mem_map.mpr ⟨q, hq, habs⟩)
        have hrestnone : pylookup rest pk = none :=
          pylookup_none_intro _ _ hrestkey
        constructor
        · intro r hr
          rw [pylookup_cons] at hr
          simp only [beq_self_eq_true, if_true, Option.some_inj] at hr
          exact Option.noConfusion hr
        · intro _
          exact (ihr acc0 st0).2 (Or.inr hrestnone)
      · have hplookup : pylookup ((pk, (none : Option String)) :: rest) j =
            pylookup rest j := by
          rw [pylookup_cons]
          simp [show ((pk, (none : Option String)).1 == j) = false by
            simpa using hpj]
        rw [hplookup]
        exact ihr acc0 st0
    | some r' =>
      by_cases hlen : pk < b.length
      · have h1 : (List.range b.length)[(pk, some r').1]? = some pk := by
          simp [List.getElem?_range, hlen]
        cases h2 : b[(pk, some r').1]? with
        | none =>
          simp only at h2
          rw [List.getElem?_eq_getElem hlen] at h2
          exact absurd h2 (by simp)
        | some item' =>
          by_cases hpj : pk = j
          · subst hpj
            have hitj : item' = it := by
              simp only at h2
              rw [hj] at h2
              exact (Option.some_inj.mp h2).symm
            subst hitj
            have hrestkey : ∀ q ∈ rest, q.1 ≠ pk := by
              intro q hq habs
              exact hnd.1 (List.mem_map.mpr ⟨q, hq, habs⟩)
            have hrestnone : pylookup rest pk = none :=
              pylookup_none_intro _ _ hrestkey
            rw [mergeResults_cons_write cfg b (List.range b.length)
              (pk, some r') rest acc0 st0 pk item' r' f h1 h2 rfl hcb]
            have hnotarget : ∀ q ∈ rest, ∀ oi,
                (List.range b.length)[q.1]? = some oi → oi ≠ pk := by
              intro q hq oi hoi
              by_cases hql : q.1 < b.length
              · rw [List.getElem?_range hql] at hoi
                exact (Option.some_inj.mp hoi) ▸ hrestkey q hq
              · rw [List.getElem?_eq_none (by simp; omega)] at hoi
                exact Option.noConfusion hoi
            have hcachecond : ∀ q ∈ rest, ∀ keyCb,
                cfg.cacheKeyCb = some keyCb → ∀ item'',
                b[q.1]? = some item'' → keyCb item'' ≠ f item' := by
              intro q hq keyCb hkcb item'' hitem''
              have hfk : keyCb = f := by
                rw [hcb] at hkcb
                exact (Option.some_inj.mp hkcb).symm
              subst hfk
              exact hinj q.1 pk item'' item' hitem'' hj (hrestkey q hq)
            constructor
            · intro r hr
              rw [pylookup_cons] at hr
              simp only [beq_self_eq_true, if_true, Option.some_inj] at hr
              subst hr
              constructor
              · rw [mergeResults_lookup_notarget cfg b (List.range b.length)
                  rest _ _ pk hnotarget]
                exact pyinsert_lookup_self _ _ _
              · rw [mergeResults_cache_preserved cfg b (List.range b.length)
                  rest _ _ (f item') hcachecond]
                exact pyinsert_lookup_self _ _ _
            · intro hr
              rcases hr with hr | hr
              · rw [pylookup_cons] at hr
                simp only [beq_self_eq_true, if_true, Option.some_inj] at hr
                exact Option.noConfusion hr
              · rw [pylookup_cons] at hr
                simp only [beq_self_eq_true, if_true] at hr
                exact Option.noConfusion hr
          · have hplookup : pylookup ((pk, some r') :: rest) j =
                pylookup rest j := by
              rw [pylookup_cons]
              simp [show ((pk, some r').1 == j) = false by simpa using hpj]
            rw [mergeResults_cons_write cfg b (List.range b.length)
              (pk, some r') rest acc0 st0 pk item' r' f h1 h2 rfl hcb]
            rw [hplookup]
            have hfne : f it ≠ f item' :=
              hinj j pk it item' hj h2 (fun h => hpj h.symm)
            have hK := ihr (pyinsert acc0 pk (some r'))
              { st0 with cache := pyinsert st0.cache (f item') r',
                         writes := st0.writes ++ [(f item', r')] }
            refine ⟨fun r hr => hK.1 r hr, fun hr => ?_⟩
            have h2nd := hK.2 hr
            rw [pyinsert_lookup_ne acc0 pk j (some r')
              (fun h => hpj h.symm)] at h2nd
            simp only at h2nd
            rw [pyinsert_lookup_ne st0.cache (f item') (f it) r' hfne] at h2nd
            exact h2nd
      · have h1 : (List.range b.length)[(pk, some r').1]? = none :=
          List.getElem?_eq_none (by simp; omega)
        have hpj : pk ≠ j := by omega
        have hplookup : pylookup ((pk, some r') :: rest) j =
            pylookup rest j := by
          rw [pylookup_cons]
          simp [show ((pk, some r').1 == j) = false by simpa using hpj]
        rw [mergeResults_cons_skip _ _ _ _ _ _ _ (Or.inl h1), hplookup]
        exact ihr acc0 st0

/-! ### Merge-loop key lemmas (for the C3 result-shape invariant) -/

theorem mergeResults_keys_nodup {α : Type} (cfg : ClientCfg α) (ri : List α)
    (rix : List Nat) (parsed : List (Nat × Option String))
    (acc0 : List (Nat × Option String)) (st0 : ClientState)
    (hacc : (acc0.map Prod.fst).Nodup) :
    (((mergeResults cfg ri rix parsed acc0 st0).1).map Prod.fst).Nodup := by
  induction parsed generalizing acc0 st0 with
  | nil => rw [mergeResults_nil]; exact hacc
  | cons p rest ih =>
    cases h1 : rix[p.1]? with
    | none =>
      rw [mergeResults_cons_skip _ _ _ _ _ _ _ (Or.inl h1)]
      exact ih _ _ hacc
    | some oi =>
      cases h2 : ri[p.1]? with
      | none =>
        rw [mergeResults_cons_skip _ _ _ _ _ _ _ (Or.inr (Or.inl h2))]
        exact ih _ _ hacc
      | some item =>
        cases h3 : p.2 with
        | none =>
          rw [mergeResults_cons_skip _ _ _ _ _ _ _ (Or.inr (Or.inr h3))]
          exact ih _ _ hacc
        | some r =>
          cases hcb : cfg.cacheKeyCb with
          | some keyCb =>
            rw [mergeResults_cons_write cfg ri rix p rest acc0 st0 oi item r
              keyCb h1 h2 h3 hcb]
            exact ih _ _ (pyinsert_keys_nodup _ _ _ hacc)
          | none =>
            rw [mergeResults_cons_write_nocb cfg ri rix p rest acc0 st0 oi
              item r h1 h2 h3 hcb]
            exact ih _ _ (pyinsert_keys_nodup _ _ _ hacc)

theorem mergeResults_keys_bound {α : Type} (cfg : ClientCfg α) (ri : List α)
    (rix : List Nat) (parsed : List (Nat × Option String))
    (acc0 : List (Nat × Option String)) (st0 : ClientState) (n : Nat)
    (hacc : ∀ p ∈ acc0, p.1 < n) (hrix : ∀ x ∈ rix, x < n) :
    ∀ p ∈ (mergeResults cfg ri rix parsed acc0 st0).1, p.1 < n := by
  induction parsed generalizing acc0 st0 with
  | nil => rw [mergeResults_nil]; exact hacc
  | cons p rest ih =>
    cases h1 : rix[p.1]? with
    | none =>
      rw [mergeResults_cons_skip _ _ _ _ _ _ _ (Or.inl h1)]
      exact ih _ _ hacc
    | some oi =>
      have hoi : oi < n := hrix oi (List.getElem?_mem h1)
      cases h2 : ri[p.1]? with
      | none =>
        rw [mergeResults_cons_skip _ _ _ _ _ _ _ (Or.inr (Or.inl h2))]
        exact ih _ _ hacc
      | some item =>
        cases h3 : p.2 with
        | none =>
          rw [mergeResults_cons_skip _ _ _ _ _ _ _ (Or.inr (Or.inr h3))]
          exact ih _ _ hacc
        | some r =>
          have hacc' : ∀ q ∈ pyinsert acc0 oi (some r), q.1 < n := by
            intro q hq
            rcases pyinsert_mem _ _ _ _ hq with h | h
            · exact hacc q h
            · rw [h]; exact hoi
          cases hcb : cfg.cacheKeyCb with
          | some keyCb =>
            rw [mergeResults_cons_write cfg ri rix p rest acc0 st0 oi item r
              keyCb h1 h2 h3 hcb]
            exact ih _ _ hacc'
          | none =>
            rw [mergeResults_cons_write_nocb cfg ri rix p rest acc0 st0 oi
              item r h1 h2 h3 hcb]
            exact ih _ _ hacc'

theorem process_batch_empty {α : Type} (cfg : ClientCfg α) (st : ClientState)
    (b : List α) (h : b.isEmpty = true) :
    process_batch cfg st b = ([], st) := by
  unfold process_batch
  rw [h]
  rfl

theorem process_batch_cached_only {α : Type} (cfg : ClientCfg α)
    (st : ClientState) (b : List α) (keyCb : α → String)
    (hcb : cfg.cacheKeyCb = some keyCb) (hne : b.isEmpty = false)
    (hrem : (cacheSplit keyCb st.cache 0 b).2.1.isEmpty = true) :
    process_batch cfg st b = ((cacheSplit keyCb st.cache 0 b).1, st) := by
  unfold process_batch
  rw [hne]
  simp only [Bool.false_eq_true, if_false, hcb, hrem, if_true]

theorem process_batch_keys {α : Type} (cfg : ClientCfg α) (st : ClientState)
    (b : List α) :
    (((process_batch cfg st b).1).map Prod.fst).Nodup ∧
      ∀ p ∈ (process_batch cfg st b).1, p.1 < b.length := by
  unfold process_batch
  cases hemp : b.isEmpty with
  | true => simp
  | false =>
    simp only [Bool.false_eq_true, if_false]
    cases hcb : cfg.cacheKeyCb with
    | some keyCb =>
      simp only
      have hcnd := cacheSplit_cached_nodup keyCb st.cache 0 b
      have hcbd : ∀ p ∈ (cacheSplit keyCb st.cache 0 b).1, p.1 < b.length := by
        intro p hp
        have := (cacheSplit_cached_bound keyCb st.cache 0 b p hp).2
        omega
      have hrixb : ∀ x ∈ (cacheSplit keyCb st.cache 0 b).2.2, x < b.length := by
        intro x hx
        have := (cacheSplit_rix_bound keyCb st.cache 0 b x hx).2
        omega
      cases hrem : (cacheSplit keyCb st.cache 0 b).2.1.isEmpty with
      | true => simp only [hrem, if_true]; exact ⟨hcnd, hcbd⟩
      | false =>
        simp only [hrem, Bool.false_eq_true, if_false]
        cases htr : cfg.transport
            (cfg.promptCb (cacheSplit keyCb st.cache 0 b).2.1) with
        | none =>
          simp only [htr, if_true]
          exact ⟨failFold_keys_nodup _ _ hcnd,
            failFold_keys_bound _ _ b.length hcbd hrixb⟩
        | some t =>
          cases hte : t.isEmpty with
          | true =>
            simp only [htr, hte, if_true]
            exact ⟨failFold_keys_nodup _ _ hcnd,
              failFold_keys_bound _ _ b.length hcbd hrixb⟩
          | false =>
            simp only [htr, hte, Bool.false_eq_true, if_false, Option.getD_some]
            exact ⟨mergeResults_keys_nodup _ _ _ _ _ _ hcnd,
              mergeResults_keys_bound _ _ _ _ _ _ b.length hcbd hrixb⟩
    | none =>
      simp only
      have hremb : (b.isEmpty : Bool) = false := hemp
      have hrixb : ∀ x ∈ List.range b.length, x < b.length := by
        intro x hx; exact List.mem_range.mp hx
      cases hrem : b.isEmpty with
      | true => rw [hemp] at hrem; exact Bool.noConfusion hrem
      | false =>
        simp only [hrem, Bool.false_eq_true, if_false]
        cases htr : cfg.transport (cfg.promptCb b) with
        | none =>
          simp only [htr, if_true]
          exact ⟨failFold_keys_nodup _ _ (by simp),
            failFold_keys_bound _ _ b.length (by simp) hrixb⟩
        | some t =>
          cases hte : t.isEmpty with
          | true =>
            simp only [htr, hte, if_true]
            exact ⟨failFold_keys_nodup _ _ (by simp),
              failFold_keys_bound _ _ b.length (by simp) hrixb⟩
          | false =>
            simp only [htr, hte, Bool.false_eq_true, if_false, Option.getD_some]
            exact ⟨mergeResults_keys_nodup _ _ _ _ _ _ (by simp),
              mergeResults_keys_bound _ _ _ _ _ _ b.length (by simp) hrixb⟩

theorem process_batch_cache_preserved {α : Type} (cfg : ClientCfg α)
    (st : ClientState) (b : List α) (k : String) (v : String)
    (hk : pylookup st.cache k = some v) :
    pylookup (process_batch cfg st b).2.cache k = some v ∧
    ∀ w ∈ (process_batch cfg st b).2.writes, w ∈ st.writes ∨ w.1 ≠ k := by
  unfold process_batch
  cases hemp : b.isEmpty with
  | true =>
    simp only [if_true]
    exact ⟨hk, fun w hw => Or.inl hw⟩
  | false =>
    simp only [Bool.false_eq_true, if_false]
    cases hcb : cfg.cacheKeyCb with
    | some keyCb =>
      simp only
      have hmisscond : ∀ p ∈ cfg.resultCb
          ((cfg.transport (cfg.promptCb (cacheSplit keyCb st.cache 0 b).2.1)).getD "")
          (cacheSplit keyCb st.cache 0 b).2.1,
          ∀ keyCb', cfg.cacheKeyCb = some keyCb' → ∀ item,
          (cacheSplit keyCb st.cache 0 b).2.1[p.1]? = some item →
          keyCb' item ≠ k := by
        intro p _ keyCb' hkcb item hitem habs
        have hkeq : keyCb = keyCb' := by
          rw [hcb] at hkcb
          exact Option.some_inj.mp hkcb
        subst hkeq
        have hmem := List.getElem?_mem hitem
        have := (cacheSplit_remaining_miss keyCb st.cache 0 b item hmem).1
        rw [habs, hk] at this
        exact Option.noConfusion this
      cases hrem : (cacheSplit keyCb st.cache 0 b).2.1.isEmpty with
      | true =>
        simp only [hrem, if_true]
        exact ⟨hk, fun w hw => Or.inl hw⟩
      | false =>
        simp only [hrem, Bool.false_eq_true, if_false]
        cases htr : cfg.transport
            (cfg.promptCb (cacheSplit keyCb st.cache 0 b).2.1) with
        | none =>
          simp only [htr, if_true]
          exact ⟨hk, fun w hw => Or.inl hw⟩
        | some t =>
          cases hte : t.isEmpty with
          | true =>
            simp only [htr, hte, if_true]
            exact ⟨hk, fun w hw => Or.inl hw⟩
          | false =>
            simp only [htr, hte, Bool.false_eq_true, if_false, Option.getD_some]
            rw [htr] at hmisscond
            simp only [Option.getD_some] at hmisscond
            constructor
            · rw [mergeResults_cache_preserved _ _ _ _ _ _ _ hmisscond]
              exact hk
            · intro w hw
              rcases mergeResults_writes _ _ _ _ _ _ w hw with hw' | hw'
              · exact Or.inl hw'
              · rcases hw' with ⟨keyCb', item, hkcb, hmem, hw1⟩
                have hkeq : keyCb = keyCb' := by
                  rw [hcb] at hkcb
                  exact Option.some_inj.mp hkcb
                subst hkeq
                have := (cacheSplit_remaining_miss keyCb st.cache 0 b
                  item hmem).1
                refine Or.inr (fun habs => ?_)
                rw [← hw1, habs, hk] at this
                exact Option.noConfusion this
    | none =>
      simp only
      cases hrem : b.isEmpty with
      | true => rw [hemp] at hrem; exact Bool.noConfusion hrem
      | false =>
        simp only [hrem, Bool.false_eq_true, if_false]
        cases htr : cfg.transport (cfg.promptCb b) with
        | none =>
          simp only [htr, if_true]
          exact ⟨hk, fun w hw => Or.inl hw⟩
        | some t =>
          cases hte : t.isEmpty with
          | true =>
            simp only [htr, hte, if_true]
            exact ⟨hk, fun w hw => Or.inl hw⟩
          | false =>
            simp only [htr, hte, Bool.false_eq_true, if_false, Option.getD_some]
            constructor
            · rw [mergeResults_cache_preserved _ _ _ _ _ _ _ (by
                intro p _ keyCb' hkcb
                rw [hcb] at hkcb
                exact Option.noConfusion hkcb)]
              exact hk
            · intro w hw
              rcases mergeResults_writes _ _ _ _ _ _ w hw with hw' | hw'
              · exact Or.inl hw'
              · rcases hw' with ⟨keyCb', item, hkcb, _, _⟩
                rw [hcb] at hkcb
                exact Option.noConfusion hkcb

/-! ### Sequential batch-run lemmas -/

theorem runBatches_length {α : Type} (cfg : ClientCfg α) (st : ClientState)
    (bs : List (List α)) :
    (runBatches cfg st bs).1.length = bs.length := by
  induction bs generalizing st with
  | nil => rfl
  | cons b rest ih => simp [runBatches, ih]

theorem runBatches_getElem {α : Type} (cfg : ClientCfg α) (st : ClientState)
    (bs : List (List α)) (k : Nat) (b : List α) (hb : bs[k]? = some b) :
    ∃ st', (runBatches cfg st bs).1[k]? =
      some (process_batch cfg st' b).1 := by
  induction bs generalizing st k with
  | nil => simp at hb
  | cons b0 rest ih =>
    cases k with
    | zero =>
      simp only [List.getElem?_cons_zero, Option.some_inj] at hb
      subst hb
      exact ⟨st, by simp [runBatches]⟩
    | succ k' =>
      simp only [List.getElem?_cons_succ] at hb
      rcases ih (process_batch cfg st b0).2 k' hb with ⟨st', hst'⟩
      exact ⟨st', by simpa [runBatches] using hst'⟩

theorem runBatches_cache_preserved {α : Type} (cfg : ClientCfg α)
    (st : ClientState) (bs : List (List α)) (k : String) (v : String)
    (hk : pylookup st.cache k = some v) :
    pylookup (runBatches cfg st bs).2.cache k = some v ∧
    ∀ w ∈ (runBatches cfg st bs).2.writes, w ∈ st.writes ∨ w.1 ≠ k := by
  induction bs generalizing st with
  | nil => exact ⟨hk, fun w hw => Or.inl hw⟩
  | cons b rest ih =>
    have h1 := process_batch_cache_preserved cfg st b k v hk
    have h2 := ih (process_batch cfg st b).2 h1.1
    refine ⟨by simpa [runBatches] using h2.1, fun w hw => ?_⟩
    have hw' : w ∈ (runBatches cfg (process_batch cfg st b).2 rest).2.writes := by
      simpa [runBatches] using hw
    rcases h2.2 w hw' with h | h
    · exact h1.2 w h
    · exact Or.inr h

/-- Backbone of the ordering claims: whatever the completion order (any
permutation of the batch indices), the assembled list has the input's length
and its `i`-th slot holds exactly what the batch run produced for item `i`. -/
theorem process_batches_results_char {α : Type} (cfg : ClientCfg α)
    (st : ClientState) (l : List α) (order : List Nat)
    (hb : 1 ≤ cfg.batch_size)
    (hperm : order.Perm (List.range (chunks l cfg.batch_size).length)) :
    (process_batches cfg st l order).results.length = l.length ∧
    ∀ i, i < l.length →
      (process_batches cfg st l order).results[i]? =
        some (producedFor (runBatches cfg st (chunks l cfg.batch_size)).1
          cfg.batch_size i) := by
  cases hl : l.isEmpty with
  | true =>
    have : l = [] := List.isEmpty_iff.mp hl
    subst this
    simp [process_batches]
  | false =>
    have hres : (process_batches cfg st l order).results =
        placeResults (runBatches cfg st (chunks l cfg.batch_size)).1
          cfg.batch_size order (List.replicate l.length none) := by
      simp [process_batches, hl]
    have hlen : (process_batches cfg st l order).results.length = l.length := by
      rw [hres, placeResults_length, List.length_replicate]
    refine ⟨hlen, fun i hi => ?_⟩
    have hbs : 0 < cfg.batch_size := hb
    have hnodup : order.Nodup := hperm.symm.nodup (List.nodup_range _)
    have hnumB : (chunks l cfg.batch_size).length =
        (l.length + cfg.batch_size - 1) / cfg.batch_size := chunks_length l _
    have hbidx : i / cfg.batch_size < (chunks l cfg.batch_size).length := by
      rw [hnumB]
      exact div_lt_numBatches l.length cfg.batch_size i hb hi
    have hbatch : (chunks l cfg.batch_size)[i / cfg.batch_size]? =
        some ((chunks l cfg.batch_size).get ⟨i / cfg.batch_size, hbidx⟩) := by
      simp [List.getElem?_eq_getElem hbidx]
    obtain ⟨st', hm⟩ := runBatches_getElem cfg st (chunks l cfg.batch_size)
      (i / cfg.batch_size) _ hbatch
    set m := (process_batch cfg st'
      ((chunks l cfg.batch_size).get ⟨i / cfg.batch_size, hbidx⟩)).1 with hmdef
    have hkeys := process_batch_keys cfg st'
      ((chunks l cfg.batch_size).get ⟨i / cfg.batch_size, hbidx⟩)
    have hblen : ((chunks l cfg.batch_size).get
        ⟨i / cfg.batch_size, hbidx⟩).length ≤ cfg.batch_size :=
      chunks_mem_length l cfg.batch_size _ (List.get_mem _ _ _)
    have hdm : i / cfg.batch_size * cfg.batch_size + i % cfg.batch_size = i := by
      rw [Nat.mul_comm]
      exact Nat.div_add_mod i cfg.batch_size
    have hothers : ∀ b' ∈ order, b' ≠ i / cfg.batch_size → ∀ m',
        (runBatches cfg st (chunks l cfg.batch_size)).1[b']? = some m' →
        ∀ p ∈ m', b' * cfg.batch_size + p.1 ≠ i := by
      intro b' hbo hbne m' hm' p hp habs
      have hb'lt : b' < (chunks l cfg.batch_size).length := by
        have := hperm.mem_iff.mp hbo
        simpa using List.mem_range.mp (by simpa using this)
      have hbatch' : (chunks l cfg.batch_size)[b']? =
          some ((chunks l cfg.batch_size).get ⟨b', hb'lt⟩) := by
        simp [List.getElem?_eq_getElem hb'lt]
      obtain ⟨st'', hm''⟩ := runBatches_getElem cfg st
        (chunks l cfg.batch_size) b' _ hbatch'
      rw [hm''] at hm'
      have hmeq := Option.some_inj.mp hm'
      have hkeys' := process_batch_keys cfg st''
        ((chunks l cfg.batch_size).get ⟨b', hb'lt⟩)
      have hpbound : p.1 < cfg.batch_size := by
        have h1 := hkeys'.2 p (hmeq ▸ hp)
        have h2 : ((chunks l cfg.batch_size).get ⟨b', hb'lt⟩).length ≤
            cfg.batch_size :=
          chunks_mem_length l cfg.batch_size _ (List.get_mem _ _ _)
        omega
      have : i / cfg.batch_size = b' := by
        rw [← habs]
        rw [show b' * cfg.batch_size + p.1 = p.1 + cfg.batch_size * b' by ring]
        rw [Nat.add_mul_div_left p.1 b' hbs, Nat.div_eq_of_lt hpbound]
        omega
      exact hbne this.symm
    have hin : i / cfg.batch_size ∈ order := by
      rw [hperm.mem_iff]
      exact List.mem_range.mpr hbidx
    cases hlook : pylookup m (i % cfg.batch_size) with
    | some v =>
      have hmem : (i % cfg.batch_size, v) ∈ m := pylookup_mem _ _ _ hlook
      have hwrite := placeResults_getElem_write
        (runBatches cfg st (chunks l cfg.batch_size)).1 cfg.batch_size order
        (List.replicate l.length none) (i / cfg.batch_size)
        (i % cfg.batch_size) m v hnodup hin hm hkeys.1 hmem
        (by rw [List.length_replicate]; omega)
        (fun b hbo hbne m' hm' p hp habs =>
          hothers b hbo hbne m' hm' p hp (by rwa [hdm] at habs))
      rw [hres]
      rw [hdm] at hwrite
      rw [hwrite]
      simp only [producedFor, hm, hlook]
    | none =>
      have hnowrite := placeResults_getElem_nowrite
        (runBatches cfg st (chunks l cfg.batch_size)).1 cfg.batch_size order
        (List.replicate l.length none) i
        (by
          intro b' hbo m' hm' p hp habs
          by_cases hbne : b' = i / cfg.batch_size
          · subst hbne
            rw [hm] at hm'
            have hmeq := Option.some_inj.mp hm'
            subst hmeq
            have hpk : p.1 = i % cfg.batch_size := by omega
            exact pylookup_none_forall m _ hlook p hp hpk
          · exact hothers b' hbo hbne m' hm' p hp habs)
      rw [hres, hnowrite]
      rw [List.getElem?_replicate]
      simp only [hi, if_true, producedFor, hm, hlook]

/-! ### `process_batch` path equations and specialisations -/

theorem process_batch_fail_cb {α : Type} (cfg : ClientCfg α)
    (st : ClientState) (b : List α) (keyCb : α → String)
    (hcb : cfg.cacheKeyCb = some keyCb) (hne : b.isEmpty = false)
    (hrem : (cacheSplit keyCb st.cache 0 b).2.1.isEmpty = false)
    (hfail : cfg.transport
      (cfg.promptCb (cacheSplit keyCb st.cache 0 b).2.1) = none) :
    process_batch cfg st b =
      ((cacheSplit keyCb st.cache 0 b).2.2.foldl
          (fun acc idx => pyinsert acc idx none)
          (cacheSplit keyCb st.cache 0 b).1,
        { st with promptCalls := st.promptCalls + 1,
                  calls := st.calls + 1 }) := by
  unfold process_batch
  rw [hne]
  simp only [Bool.false_eq_true, if_false, hcb, hrem, hfail]
  simp

theorem process_batch_fail_nocb {α : Type} (cfg : ClientCfg α)
    (st : ClientState) (b : List α) (hcb : cfg.cacheKeyCb = none)
    (hne : b.isEmpty = false)
    (hfail : cfg.transport (cfg.promptCb b) = none) :
    process_batch cfg st b =
      ((List.range b.length).foldl (fun acc idx => pyinsert acc idx none) [],
        { st with promptCalls := st.promptCalls + 1,
                  calls := st.calls + 1 }) := by
  unfold process_batch
  rw [hne]
  simp only [Bool.false_eq_true, if_false, hcb, hne, hfail]
  simp

theorem process_batch_merge_cb {α : Type} (cfg : ClientCfg α)
    (st : ClientState) (b : List α) (keyCb : α → String) (t : String)
    (hcb : cfg.cacheKeyCb = some keyCb) (hne : b.isEmpty = false)
    (hrem : (cacheSplit keyCb st.cache 0 b).2.1.isEmpty = false)
    (htr : cfg.transport
      (cfg.promptCb (cacheSplit keyCb st.cache 0 b).2.1) = some t)
    (hte : t.isEmpty = false) :
    process_batch cfg st b =
      mergeResults cfg (cacheSplit keyCb st.cache 0 b).2.1
        (cacheSplit keyCb st.cache 0 b).2.2
        (cfg.resultCb t (cacheSplit keyCb st.cache 0 b).2.1)
        (cacheSplit keyCb st.cache 0 b).1
        { st with promptCalls := st.promptCalls + 1,
                  calls := st.calls + 1 } := by
  unfold process_batch
  rw [hne]
  simp only [Bool.false_eq_true, if_false, hcb, hrem, htr, hte,
    Option.getD_some]

theorem process_batch_all_hit {α : Type} (cfg : ClientCfg α)
    (st : ClientState) (b : List α) (keyCb : α → String)
    (hcb : cfg.cacheKeyCb = some keyCb)
    (hhit : ∀ it ∈ b, (pylookup st.cache (keyCb it)).isSome = true) :
    process_batch cfg st b = ((cacheSplit keyCb st.cache 0 b).1, st) := by
  cases hemp : b.isEmpty with
  | true =>
    rw [process_batch_empty cfg st b hemp]
    have : b = [] := List.isEmpty_iff.mp hemp
    subst this
    simp [cacheSplit]
  | false =>
    have hsplit := cacheSplit_all_hit keyCb st.cache 0 b hhit
    exact process_batch_cached_only cfg st b keyCb hcb hemp
      (by rw [hsplit.1]; rfl)

theorem process_batch_fail_values {α : Type} (cfg : ClientCfg α)
    (st : ClientState) (b : List α) (keyCb : α → String)
    (hcb : cfg.cacheKeyCb = some keyCb)
    (htr : ∀ s, cfg.transport s = none)
    (hmiss : ∀ it ∈ b, pylookup st.cache (keyCb it) = none) :
    (∀ p ∈ (process_batch cfg st b).1, p.2 = none) ∧
    (process_batch cfg st b).2.cache = st.cache ∧
    (process_batch cfg st b).2.writes = st.writes := by
  cases hemp : b.isEmpty with
  | true =>
    rw [process_batch_empty cfg st b hemp]
    exact ⟨by simp, rfl, rfl⟩
  | false =>
    have hsplit := cacheSplit_all_miss keyCb st.cache 0 b hmiss
    have hrem : (cacheSplit keyCb st.cache 0 b).2.1.isEmpty = false := by
      rw [hsplit]
      exact hemp
    rw [process_batch_fail_cb cfg st b keyCb hcb hemp hrem (htr _)]
    refine ⟨?_, rfl, rfl⟩
    rw [hsplit]
    exact failFold_values_none _ [] (by simp)

/-! ### Whole-run specialisations -/

theorem chunks_mem_subset {α : Type} (l : List α) (b : Nat) (c : List α)
    (hc : c ∈ chunks l b) : ∀ x ∈ c, x ∈ l := by
  simp only [chunks, List.mem_map] at hc
  rcases hc with ⟨j, _, rfl⟩
  intro x hx
  exact List.mem_of_mem_drop (List.mem_of_mem_take hx)

theorem runBatches_all_hit {α : Type} (cfg : ClientCfg α) (st : ClientState)
    (bs : List (List α)) (keyCb : α → String)
    (hcb : cfg.cacheKeyCb = some keyCb)
    (hhit : ∀ b ∈ bs, ∀ it ∈ b, (pylookup st.cache (keyCb it)).isSome = true) :
    (runBatches cfg st bs).2 = st ∧
    ∀ (k : Nat) (b : List α), bs[k]? = some b →
      (runBatches cfg st bs).1[k]? =
        some (cacheSplit keyCb st.cache 0 b).1 := by
  induction bs with
  | nil => exact ⟨rfl, fun k b hkb => by simp at hkb⟩
  | cons b0 rest ih =>
    have hpb := process_batch_all_hit cfg st b0 keyCb hcb
      (hhit b0 (List.mem_cons_self _ _))
    have ihr := ih (fun b hb => hhit b (List.mem_cons_of_mem _ hb))
    constructor
    · simp only [runBatches, hpb]
      exact ihr.1
    · intro k b hkb
      cases k with
      | zero =>
        simp only [List.getElem?_cons_zero, Option.some_inj] at hkb
        subst hkb
        simp [runBatches, hpb]
      | succ k' =>
        simp only [List.getElem?_cons_succ] at hkb
        simp only [runBatches, hpb, List.getElem?_cons_succ]
        exact ihr.2 k' b hkb

theorem runBatches_fail_values {α : Type} (cfg : ClientCfg α)
    (st : ClientState) (bs : List (List α)) (keyCb : α → String)
    (hcb : cfg.cacheKeyCb = some keyCb)
    (htr : ∀ s, cfg.transport s = none) (hcache : st.cache = []) :
    (runBatches cfg st bs).2.cache = [] ∧
    ∀ m ∈ (runBatches cfg st bs).1, ∀ p ∈ m, p.2 = none := by
  induction bs generalizing st with
  | nil => exact ⟨hcache, fun m hm => by simp [runBatches] at hm⟩
  | cons b0 rest ih =>
    have hmiss : ∀ it ∈ b0, pylookup st.cache (keyCb it) = none := by
      intro it _
      rw [hcache]
      rfl
    have hpb := process_batch_fail_values cfg st b0 keyCb hcb htr hmiss
    have hcache' : (process_batch cfg st b0).2.cache = [] := by
      rw [hpb.2.1, hcache]
    have ihr := ih (process_batch cfg st b0).2 hcache'
    refine ⟨by simpa [runBatches] using ihr.1, ?_⟩
    intro m hm
    simp only [runBatches, List.mem_cons] at hm
    rcases hm with rfl | hm
    · exact hpb.1
    · exact ihr.2 m hm

theorem writeBatch_all_none (m : List (Nat × Option String))
    (arr : List (Option String)) (start : Nat)
    (harr : ∀ x ∈ arr, x = none) (hm : ∀ p ∈ m, p.2 = none) :
    ∀ x ∈ writeBatch arr start m, x = none := by
  induction m generalizing arr with
  | nil => exact harr
  | cons p rest ih =>
    simp only [writeBatch, List.foldl_cons]
    by_cases hlt : start + p.1 < arr.length
    · simp only [hlt, if_true]
      rw [show (List.foldl _ (arr.set (start + p.1) p.2) rest) =
        writeBatch (arr.set (start + p.1) p.2) start rest from rfl]
      refine ih _ (fun x hx => ?_) (fun q hq => hm q (List.mem_cons_of_mem _ hq))
      rcases List.mem_or_eq_of_mem_set hx with hx | hx
      · exact harr x hx
      · rw [hx]
        exact hm p (List.mem_cons_self _ _)
    · simp only [hlt, if_false]
      exact ih arr harr (fun q hq => hm q (List.mem_cons_of_mem _ hq))

theorem placeResults_all_none (maps : List (List (Nat × Option String)))
    (bs : Nat) (order : List Nat) (arr : List (Option String))
    (harr : ∀ x ∈ arr, x = none)
    (hmaps : ∀ m ∈ maps, ∀ p ∈ m, p.2 = none) :
    ∀ x ∈ placeResults maps bs order arr, x = none := by
  induction order generalizing arr with
  | nil => exact harr
  | cons bidx rest ih =>
    simp only [placeResults, List.foldl_cons]
    cases hm : maps[bidx]? with
    | none =>
      simp only [hm]
      exact ih arr harr
    | some m =>
      simp only [hm]
      rw [show (List.foldl _ (writeBatch arr (bidx * bs) m) rest) =
        placeResults maps bs rest (writeBatch arr (bidx * bs) m) from rfl]
      exact ih _ (writeBatch_all_none m arr (bidx * bs) harr
        (hmaps m (List.getElem?_mem hm)))

theorem zipWith_fallback_all_none (items : List TranslationItem)
    (res : List (Option String)) (hlen : res.length = items.length)
    (hnone : ∀ x ∈ res, x = none) :
    List.zipWith
      (fun item tr => match tr with | some t => t | none => item.en_value)
      items res = items.map (fun it => it.en_value) := by
  induction items generalizing res with
  | nil => simp
  | cons it rest ih =>
    cases res with
    | nil => simp at hlen
    | cons r rr =>
      have hr : r = none := hnone r (List.mem_cons_self _ _)
      subst hr
      simp only [List.zipWith_cons_cons, List.map_cons]
      rw [ih rr (by simpa using hlen)
        (fun x hx => hnone x (List.mem_cons_of_mem _ hx))]

/-! ### Claim theorems -/

/-- Claim C3: for every input list and batch size `≥ 1`, the list returned by
`process_batches` has exactly the input's length, and — whatever the
completion order of the batches (any permutation of the batch indices) — the
value at output position `i` is exactly the result the batch run produced
for input item `i` (`producedFor`, which does not depend on `order`): final
output order equals input order regardless of batch completion order. -/
theorem process_batches_length_and_order {α : Type} (cfg : ClientCfg α)
    (st : ClientState) (l : List α) (order : List Nat)
    (hb : 1 ≤ cfg.batch_size)
    (hperm : order.Perm (List.range (chunks l cfg.batch_size).length)) :
    (process_batches cfg st l order).results.length = l.length ∧
    ∀ i, i < l.length →
      (process_batches cfg st l order).results[i]? =
        some (producedFor (runBatches cfg st (chunks l cfg.batch_size)).1
          cfg.batch_size i) :=
  process_batches_results_char cfg st l order hb hperm

/-- Witness for C3: three items, batch size 2, batches completing in reverse
order. -/
theorem process_batches_length_and_order_witness :
    (process_batches
      { transport := fun _ => some "R", promptCb := fun _ => "",
        resultCb := fun _ _ => [(0, some "X")], cacheKeyCb := none,
        batch_size := 2 }
      initState ["a", "b", "c"] [1, 0]).results.length =
        (["a", "b", "c"] : List String).length ∧
    ∀ i, i < (["a", "b", "c"] : List String).length →
      (process_batches
        { transport := fun _ => some "R", promptCb := fun _ => "",
          resultCb := fun _ _ => [(0, some "X")], cacheKeyCb := none,
          batch_size := 2 }
        initState ["a", "b", "c"] [1, 0]).results[i]? =
          some (producedFor
            (runBatches
              { transport := fun _ => some "R", promptCb := fun _ => "",
                resultCb := fun _ _ => [(0, some "X")], cacheKeyCb := none,
                batch_size := 2 }
              initState (chunks ["a", "b", "c"] 2)).1 2 i) :=
  process_batches_length_and_order
    { transport := fun _ => some "R", promptCb := fun _ => "",
      resultCb := fun _ _ => [(0, some "X")], cacheKeyCb := none,
      batch_size := 2 }
    initState ["a", "b", "c"] [1, 0] (by decide) (by decide)

/-- Claim C9 (amended): the progress callback is invoked exactly once per
completed batch with second argument the total number of batches, but its
FIRST argument is `batch_idx + 1` — the 1-based submission index of the
batch that completed — not the number of batches completed so far; the two
coincide only when completion order equals submission order.  See
`progress_first_arg_cex`. -/
theorem progress_trace_spec {α : Type} (cfg : ClientCfg α) (st : ClientState)
    (l : List α) (order : List Nat) (hl : l.isEmpty = false)
    (hperm : order.Perm (List.range (chunks l cfg.batch_size).length)) :
    (process_batches cfg st l order).progress.length =
      (chunks l cfg.batch_size).length ∧
    ∀ j : Nat, (process_batches cfg st l order).progress[j]? =
      (order[j]?).map
        (fun bidx => (bidx + 1, (chunks l cfg.batch_size).length)) := by
  have hprog : (process_batches cfg st l order).progress =
      order.map (fun bidx => (bidx + 1, (chunks l cfg.batch_size).length)) := by
    simp [process_batches, hl]
  constructor
  · rw [hprog, List.length_map, hperm.length_eq, List.length_range]
  · intro j
    rw [hprog, List.getElem?_map]

/-- Witness for C9's amended statement at a concrete run. -/
theorem progress_trace_spec_witness :
    (process_batches
      { transport := fun _ => none, promptCb := fun _ => "",
        resultCb := fun _ _ => [], cacheKeyCb := none, batch_size := 1 }
      initState ["a", "b"] [1, 0]).progress.length =
        (chunks ["a", "b"] 1).length ∧
    ∀ j : Nat, (process_batches
      { transport := fun _ => none, promptCb := fun _ => "",
        resultCb := fun _ _ => [], cacheKeyCb := none, batch_size := 1 }
      initState ["a", "b"] [1, 0]).progress[j]? =
        (([1, 0] : List Nat)[j]?).map
          (fun bidx => (bidx + 1, (chunks ["a", "b"] 1).length)) :=
  progress_trace_spec
    { transport := fun _ => none, promptCb := fun _ => "",
      resultCb := fun _ _ => [], cacheKeyCb := none, batch_size := 1 }
    initState ["a", "b"] [1, 0] (by decide) (by decide)

/-- Counterexample to claim C9 as stated: two batches complete in the order
[batch 1, batch 0]; the first progress invocation carries first argument
`2` (= completed batch's index + 1), although only `1` batch has completed
so far. -/
theorem progress_first_arg_cex :
    ([1, 0].Perm (List.range (chunks ["a", "b"] 1).length)) ∧
    (process_batches
      { transport := fun _ => none, promptCb := fun _ => "",
        resultCb := fun _ _ => [], cacheKeyCb := none, batch_size := 1 }
      initState ["a", "b"] [1, 0]).progress = [(2, 2), (1, 2)] ∧
    (2 : Nat) ≠ 1 := by
  refine ⟨by decide, rfl, by decide⟩

/-- Claim C7 (amended): once a key is present in the client's cache when a
run starts, the run never changes its value, and every cache write the run
performs is for a different key; this also holds across successive calls on
the same instance by induction.  The claim as stated fails inside a single
batch: two cache-missing items with the same cache key are each written,
the later write overwriting the earlier with a possibly different value —
see `cache_overwrite_same_batch_cex`. -/
theorem cache_key_preserved_once_present {α : Type} (cfg : ClientCfg α)
    (st : ClientState) (l : List α) (order : List Nat) (k v : String)
    (hk : pylookup st.cache k = some v) :
    pylookup (process_batches cfg st l order).state.cache k = some v ∧
    ∀ w ∈ (process_batches cfg st l order).state.writes,
      w ∈ st.writes ∨ w.1 ≠ k := by
  cases hl : l.isEmpty with
  | true =>
    have hst : (process_batches cfg st l order).state = st := by
      simp [process_batches, hl]
    rw [hst]
    exact ⟨hk, fun w hw => Or.inl hw⟩
  | false =>
    have hst : (process_batches cfg st l order).state =
        (runBatches cfg st (chunks l cfg.batch_size)).2 := by
      simp [process_batches, hl]
    rw [hst]
    exact runBatches_cache_preserved cfg st _ k v hk

/-- Witness for C7's amended statement: key "K" cached before the run keeps
its value through a run whose transport fails. -/
theorem cache_key_preserved_once_present_witness :
    pylookup (process_batches
      { transport := fun _ => none, promptCb := fun _ => "",
        resultCb := fun _ _ => [], cacheKeyCb := some (fun s => s),
        batch_size := 1 }
      (⟨[("K", "v0")], 0, 0, []⟩ : ClientState)
      ["K", "z"] [0, 1]).state.cache "K" = some "v0" ∧
    ∀ w ∈ (process_batches
      { transport := fun _ => none, promptCb := fun _ => "",
        resultCb := fun _ _ => [], cacheKeyCb := some (fun s => s),
        batch_size := 1 }
      (⟨[("K", "v0")], 0, 0, []⟩ : ClientState)
      ["K", "z"] [0, 1]).state.writes,
      w ∈ ((⟨[("K", "v0")], 0, 0, []⟩ : ClientState)).writes ∨ w.1 ≠ "K" :=
  cache_key_preserved_once_present
    { transport := fun _ => none, promptCb := fun _ => "",
      resultCb := fun _ _ => [], cacheKeyCb := some (fun s => s),
      batch_size := 1 }
    (⟨[("K", "v0")], 0, 0, []⟩ : ClientState)
    ["K", "z"] [0, 1] "K" "v0" rfl

/-- Counterexample to claim C7 as stated: two cache-missing items in the
same batch share the cache key "K"; the successful resolution of the first
writes `("K", "r1")`, and the later successful resolution of the second
overwrites the entry with the different value `"r2"`. -/
theorem cache_overwrite_same_batch_cex :
    (process_batch
      { transport := fun _ => some "x", promptCb := fun _ => "",
        resultCb := fun _ _ => [(0, some "r1"), (1, some "r2")],
        cacheKeyCb := some (fun _ => "K"), batch_size := 20 }
      initState ["a", "b"]).2.writes = [("K", "r1"), ("K", "r2")] ∧
    (process_batch
      { transport := fun _ => some "x", promptCb := fun _ => "",
        resultCb := fun _ _ => [(0, some "r1"), (1, some "r2")],
        cacheKeyCb := some (fun _ => "K"), batch_size := 20 }
      initState ["a", "b"]).2.cache = [("K", "r2")] ∧
    ("r1" : String) ≠ "r2" :=
  ⟨rfl, rfl, by decide⟩

/-- Claim C2 (amended): `process_batch` is total (never raises) and its
result dict always has pairwise-distinct keys, all below the batch length;
when every transport attempt fails, the key set is exactly `0..len-1`, with
a cache hit mapped to its cached value and a cache miss mapped to `None` —
the `None` placeholder, not the item's fallback value, which is substituted
only later (in `translate_items`).  On transport success, a parser that
omits an index or returns `None` for it leaves that index absent from the
returned map — see `process_batch_missing_index_cex`. -/
theorem process_batch_result_map_shape {α : Type} (cfg : ClientCfg α)
    (st : ClientState) (b : List α) :
    ((((process_batch cfg st b).1).map Prod.fst).Nodup ∧
      ∀ p ∈ (process_batch cfg st b).1, p.1 < b.length) ∧
    ((∀ s, cfg.transport s = none) →
      (∀ f, cfg.cacheKeyCb = some f →
        ∀ (i : Nat) (it : α), b[i]? = some it →
          pylookup (process_batch cfg st b).1 i =
            some (pylookup st.cache (f it))) ∧
      (cfg.cacheKeyCb = none →
        ∀ i, i < b.length →
          pylookup (process_batch cfg st b).1 i = some none)) := by
  refine ⟨process_batch_keys cfg st b, fun htr => ⟨?_, ?_⟩⟩
  · intro f hcb i it hi
    have hilen : i < b.length := by
      by_contra habs
      rw [List.getElem?_eq_none (by omega)] at hi
      exact Option.noConfusion hi
    have hemp : b.isEmpty = false := by
      cases b with
      | nil => simp at hilen
      | cons x rest => rfl
    have hidx := cacheSplit_index f st.cache 0 b i it hi
    rw [Nat.zero_add] at hidx
    cases hrem : (cacheSplit f st.cache 0 b).2.1.isEmpty with
    | true =>
      rw [process_batch_cached_only cfg st b f hcb hemp hrem]
      cases hlk : pylookup st.cache (f it) with
      | some v =>
        rw [hlk] at hidx
        exact hidx.1
      | none =>
        exfalso
        have hrix0 : (cacheSplit f st.cache 0 b).2.2.length = 0 := by
          rw [← cacheSplit_lengths f st.cache 0 b]
          simpa using List.isEmpty_iff_length_eq_zero.mp hrem
        have := hidx.2.2 hlk
        rw [List.length_eq_zero.mp hrix0] at this
        simp at this
    | false =>
      rw [process_batch_fail_cb cfg st b f hcb hemp hrem (htr _)]
      cases hlk : pylookup st.cache (f it) with
      | some v =>
        rw [hlk] at hidx
        rw [failFold_lookup_notmem _ _ _ (hidx.2.1 (by simp))]
        exact hidx.1
      | none =>
        rw [hlk] at hidx
        rw [failFold_lookup_mem _ _ _ (hidx.2.2 rfl)]
  · intro hcb i hilen
    have hemp : b.isEmpty = false := by
      cases b with
      | nil => simp at hilen
      | cons x rest => rfl
    rw [process_batch_fail_nocb cfg st b hcb hemp (htr _)]
    rw [failFold_lookup_mem _ _ _ (List.mem_range.mpr hilen)]

/-- Counterexample to claim C2 as stated: the transport succeeds but the
parser returns the empty map; for the non-empty batch `["a"]` the result's
key set is empty, not `{0}`, and no fallback value appears. -/
theorem process_batch_missing_index_cex :
    (process_batch
      { transport := fun _ => some "resp", promptCb := fun _ => "",
        resultCb := fun _ _ => [], cacheKeyCb := none, batch_size := 20 }
      initState ["a"]).1 = [] ∧
    (["a"] : List String).length = 1 ∧
    pylookup (process_batch
      { transport := fun _ => some "resp", promptCb := fun _ => "",
        resultCb := fun _ _ => [], cacheKeyCb := none, batch_size := 20 }
      initState ["a"]).1 0 = none :=
  ⟨rfl, rfl, rfl⟩

/-- Witness for C2's amended statement: item 0 hits the cache, item 1
misses; with a failing transport the map sends 0 to the cached value and 1
to `None`. -/
theorem process_batch_result_map_shape_witness :
    pylookup (process_batch
      { transport := fun _ => none, promptCb := fun _ => "",
        resultCb := fun _ _ => [], cacheKeyCb := some (fun s => s),
        batch_size := 20 }
      (⟨[("a", "va")], 0, 0, []⟩ : ClientState) ["a", "b"]).1 1 =
      some (pylookup [("a", "va")] "b") :=
  ((process_batch_result_map_shape
    { transport := fun _ => none, promptCb := fun _ => "",
      resultCb := fun _ _ => [], cacheKeyCb := some (fun s => s),
      batch_size := 20 }
    (⟨[("a", "va")], 0, 0, []⟩ : ClientState) ["a", "b"]).2
      (fun _ => rfl)).1 (fun s => s) rfl 1 "b" rfl

/-- Claim C8: when a cache-key callback is supplied and the cache already
contains every input item's key at the start of the run, the run issues
zero transport calls, never invokes the prompt callback, leaves the whole
client state (cache, counters, write log) untouched, and returns each
item's cached value; in particular each `process_batch` returns cached
results only. -/
theorem process_batches_full_cache_no_calls {α : Type} (cfg : ClientCfg α)
    (st : ClientState) (l : List α) (order : List Nat) (f : α → String)
    (hcb : cfg.cacheKeyCb = some f)
    (hhit : ∀ it ∈ l, (pylookup st.cache (f it)).isSome = true)
    (hb : 1 ≤ cfg.batch_size)
    (hperm : order.Perm (List.range (chunks l cfg.batch_size).length)) :
    (process_batches cfg st l order).state = st ∧
    (process_batches cfg st l order).results.length = l.length ∧
    ∀ (i : Nat) (it : α), l[i]? = some it →
      (process_batches cfg st l order).results[i]? =
        some (pylookup st.cache (f it)) := by
  have hchunk : ∀ b ∈ chunks l cfg.batch_size, ∀ it ∈ b,
      (pylookup st.cache (f it)).isSome = true :=
    fun b hbm it hit => hhit it (chunks_mem_subset l _ b hbm it hit)
  have hrb := runBatches_all_hit cfg st (chunks l cfg.batch_size) f hcb hchunk
  have hchar := process_batches_results_char cfg st l order hb hperm
  have hstate : (process_batches cfg st l order).state = st := by
    cases hl : l.isEmpty with
    | true => simp [process_batches, hl]
    | false =>
      have : (process_batches cfg st l order).state =
          (runBatches cfg st (chunks l cfg.batch_size)).2 := by
        simp [process_batches, hl]
      rw [this, hrb.1]
  refine ⟨hstate, hchar.1, fun i it hit => ?_⟩
  have hi : i < l.length := by
    by_contra habs
    rw [List.getElem?_eq_none (by omega)] at hit
    exact Option.noConfusion hit
  rw [hchar.2 i hi]
  obtain ⟨batch, hbatch, hbi⟩ := chunks_flat l cfg.batch_size i hb hi
  have hmap := hrb.2 (i / cfg.batch_size) batch hbatch
  have hbit : batch[i % cfg.batch_size]? = some it := by rw [hbi, hit]
  have hidx := cacheSplit_index f st.cache 0 batch (i % cfg.batch_size) it hbit
  rw [Nat.zero_add] at hidx
  cases hlk : pylookup st.cache (f it) with
  | none =>
    exfalso
    have := hhit it (List.getElem?_mem hit)
    rw [hlk] at this
    simp at this
  | some v =>
    rw [hlk] at hidx
    simp only [producedFor, hmap, hidx.1, Option.map_some']

/-- Witness for C8: both items cached before the run; the run returns the
cached values and the state (counters included) is exactly the input state. -/
theorem process_batches_full_cache_no_calls_witness :
    (process_batches
      { transport := fun _ => none, promptCb := fun _ => "",
        resultCb := fun _ _ => [], cacheKeyCb := some (fun s => s),
        batch_size := 1 }
      (⟨[("a", "va"), ("b", "vb")], 0, 0, []⟩ : ClientState)
      ["a", "b"] [1, 0]).state =
      (⟨[("a", "va"), ("b", "vb")], 0, 0, []⟩ : ClientState) ∧
    (process_batches
      { transport := fun _ => none, promptCb := fun _ => "",
        resultCb := fun _ _ => [], cacheKeyCb := some (fun s => s),
        batch_size := 1 }
      (⟨[("a", "va"), ("b", "vb")], 0, 0, []⟩ : ClientState)
      ["a", "b"] [1, 0]).results.length = (["a", "b"] : List String).length ∧
    ∀ (i : Nat) (it : String), (["a", "b"] : List String)[i]? = some it →
      (process_batches
        { transport := fun _ => none, promptCb := fun _ => "",
          resultCb := fun _ _ => [], cacheKeyCb := some (fun s => s),
          batch_size := 1 }
        (⟨[("a", "va"), ("b", "vb")], 0, 0, []⟩ : ClientState)
        ["a", "b"] [1, 0]).results[i]? =
        some (pylookup [("a", "va"), ("b", "vb")] it) :=
  process_batches_full_cache_no_calls
    { transport := fun _ => none, promptCb := fun _ => "",
      resultCb := fun _ _ => [], cacheKeyCb := some (fun s => s),
      batch_size := 1 }
    (⟨[("a", "va"), ("b", "vb")], 0, 0, []⟩ : ClientState)
    ["a", "b"] [1, 0] (fun s => s) rfl (by decide) (by decide) (by decide)

/-- Claim C6 (amended): on transport success (non-empty response text), for
each requested item of a batch of cache-missing items: if the parsed value
is non-`None` it is recorded as the item's result and written into the
cache under the item's key — INCLUDING when it is the empty string, since
the code tests `result is not None`, not emptiness (see
`process_batch_empty_string_cached_cex`); if the parsed value is `None` or
the index is absent, the item gets no entry in the result dict and no cache
write — the fallback substitution happens upstream, not here. -/
theorem process_batch_merge_semantics {α : Type} (cfg : ClientCfg α)
    (st : ClientState) (b : List α) (f : α → String) (t : String)
    (hcb : cfg.cacheKeyCb = some f)
    (htr : ∀ s, cfg.transport s = some t) (hte : t.isEmpty = false)
    (hcache : st.cache = [])
    (hinj : ∀ (j1 j2 : Nat) (it1 it2 : α), b[j1]? = some it1 →
      b[j2]? = some it2 → j1 ≠ j2 → f it1 ≠ f it2)
    (hnd : ((cfg.resultCb t b).map Prod.fst).Nodup) :
    ∀ (i : Nat) (it : α), b[i]? = some it →
      (∀ r, pylookup (cfg.resultCb t b) i = some (some r) →
        pylookup (process_batch cfg st b).1 i = some (some r) ∧
        pylookup (process_batch cfg st b).2.cache (f it) = some r) ∧
      ((pylookup (cfg.resultCb t b) i = some none ∨
          pylookup (cfg.resultCb t b) i = none) →
        pylookup (process_batch cfg st b).1 i = none ∧
        pylookup (process_batch cfg st b).2.cache (f it) = none) := by
  intro i it hi
  have hemp : b.isEmpty = false := by
    cases b with
    | nil => simp at hi
    | cons x rest => rfl
  have hmiss : ∀ x ∈ b, pylookup st.cache (f x) = none := by
    intro x _
    rw [hcache]
    rfl
  have hsplit := cacheSplit_all_miss f st.cache 0 b hmiss
  have hrem : (cacheSplit f st.cache 0 b).2.1.isEmpty = false := by
    rw [hsplit]
    exact hemp
  have heq := process_batch_merge_cb cfg st b f t hcb hemp hrem (htr _) hte
  rw [hsplit] at heq
  rw [show List.range' 0 b.length = List.range b.length from
    (List.range_eq_range' b.length).symm] at heq
  have hM := mergeResults_range_lookup cfg b f hcb hinj (cfg.resultCb t b)
    hnd []
    { st with promptCalls := st.promptCalls + 1, calls := st.calls + 1 }
    i it hi
  constructor
  · intro r hr
    have := hM.1 r hr
    rw [heq]
    exact this
  · intro hr
    have := hM.2 hr
    rw [heq]
    refine ⟨this.1, ?_⟩
    rw [this.2]
    simp only
    rw [hcache]
    rfl

/-- Counterexample to claim C6 as stated: the parser returns the EMPTY
string for item 0; the code records it as the result and writes it into the
cache (`"" is not None`), instead of falling back to the item's value and
skipping the cache write as the claim demands. -/
theorem process_batch_empty_string_cached_cex :
    (process_batch
      { transport := fun _ => some "x", promptCb := fun _ => "",
        resultCb := fun _ _ => [(0, some "")],
        cacheKeyCb := some (fun s => s), batch_size := 20 }
      initState ["item"]).1 = [(0, some "")] ∧
    (process_batch
      { transport := fun _ => some "x", promptCb := fun _ => "",
        resultCb := fun _ _ => [(0, some "")],
        cacheKeyCb := some (fun s => s), batch_size := 20 }
      initState ["item"]).2.cache = [("item", "")] ∧
    ("" : String) ≠ "item" :=
  ⟨rfl, rfl, by decide⟩

/-- Witness for C6's amended statement: a two-item batch where item 0 parses
to "r0" (recorded and cached) and item 1 is absent from the parser output
(no entry, no cache write). -/
theorem process_batch_merge_semantics_witness :
    (pylookup (process_batch
      { transport := fun _ => some "x", promptCb := fun _ => "",
        resultCb := fun _ _ => [(0, some "r0")],
        cacheKeyCb := some (fun s => s), batch_size := 20 }
      initState ["a", "b"]).1 0 = some (some "r0") ∧
    pylookup (process_batch
      { transport := fun _ => some "x", promptCb := fun _ => "",
        resultCb := fun _ _ => [(0, some "r0")],
        cacheKeyCb := some (fun s => s), batch_size := 20 }
      initState ["a", "b"]).2.cache "a" = some "r0") ∧
    (pylookup (process_batch
      { transport := fun _ => some "x", promptCb := fun _ => "",
        resultCb := fun _ _ => [(0, some "r0")],
        cacheKeyCb := some (fun s => s), batch_size := 20 }
      initState ["a", "b"]).1 1 = none ∧
    pylookup (process_batch
      { transport := fun _ => some "x", promptCb := fun _ => "",
        resultCb := fun _ _ => [(0, some "r0")],
        cacheKeyCb := some (fun s => s), batch_size := 20 }
      initState ["a", "b"]).2.cache "b" = none) :=
  ⟨(process_batch_merge_semantics
      { transport := fun _ => some "x", promptCb := fun _ => "",
        resultCb := fun _ _ => [(0, some "r0")],
        cacheKeyCb := some (fun s => s), batch_size := 20 }
      initState ["a", "b"] (fun s => s) "x" rfl (fun _ => rfl) rfl rfl
      (by
        intro j1 j2 it1 it2 h1 h2 hne habs
        have hj1 : j1 < 2 := by
          by_contra h
          rw [List.getElem?_eq_none (by simp; omega)] at h1
          exact Option.noConfusion h1
        have hj2 : j2 < 2 := by
          by_contra h
          rw [List.getElem?_eq_none (by simp; omega)] at h2
          exact Option.noConfusion h2
        interval_cases j1 <;> interval_cases j2 <;> simp_all <;>
          exact absurd (h1.trans h2.symm) (by decide))
      (by decide) 0 "a" rfl).1 "r0" rfl,
   (process_batch_merge_semantics
      { transport := fun _ => some "x", promptCb := fun _ => "",
        resultCb := fun _ _ => [(0, some "r0")],
        cacheKeyCb := some (fun s => s), batch_size := 20 }
      initState ["a", "b"] (fun s => s) "x" rfl (fun _ => rfl) rfl rfl
      (by
        intro j1 j2 it1 it2 h1 h2 hne habs
        have hj1 : j1 < 2 := by
          by_contra h
          rw [List.getElem?_eq_none (by simp; omega)] at h1
          exact Option.noConfusion h1
        have hj2 : j2 < 2 := by
          by_contra h
          rw [List.getElem?_eq_none (by simp; omega)] at h2
          exact Option.noConfusion h2
        interval_cases j1 <;> interval_cases j2 <;> simp_all <;>
          exact absurd (h1.trans h2.symm) (by decide))
      (by decide) 1 "b" rfl).2 (Or.inr rfl)⟩

/-- Claim C1: with a transport whose every attempt fails, `translate_items`
returns normally (the embedding is total — no failure path raises) and its
output is, for every input item, exactly the item's fallback `en_value`;
moreover the cache stays empty, so the same holds for every later call on
the same instance — a fresh `AITranslator` starts from `initState` with
`self.cache = {}`, and an always-failing transport can never populate it. -/
theorem translate_items_total_failure (transport : String → Option String)
    (glossary : List (String × String)) (batch_size : Nat) (st : ClientState)
    (items : List TranslationItem) (order : List Nat)
    (htr : ∀ s, transport s = none) (hcache : st.cache = [])
    (hb : 1 ≤ batch_size) :
    (translate_items transport glossary batch_size st items order).1 =
      items.map (fun it => it.en_value) ∧
    (translate_items transport glossary batch_size st items order).2.cache =
      [] := by
  cases hl : items.isEmpty with
  | true =>
    have : items = [] := List.isEmpty_iff.mp hl
    subst this
    simp [translate_items, hcache]
  | false =>
    have htr' : ∀ s,
        (translatorCfg transport glossary batch_size).transport s = none := htr
    have hrbf := runBatches_fail_values
      (translatorCfg transport glossary batch_size) st
      (chunks items batch_size) getCacheKey rfl htr' hcache
    have hti : translate_items transport glossary batch_size st items order =
        (List.zipWith
          (fun item tr => match tr with | some t => t | none => item.en_value)
          items
          (process_batches (translatorCfg transport glossary batch_size) st
            items order).results,
         (process_batches (translatorCfg transport glossary batch_size) st
            items order).state) := by
      simp [translate_items, hl]
    have hres : (process_batches (translatorCfg transport glossary batch_size)
        st items order).results =
        placeResults (runBatches (translatorCfg transport glossary batch_size)
          st (chunks items batch_size)).1 batch_size order
          (List.replicate items.length none) := by
      simp [process_batches, hl]
      rfl
    have hlen : (process_batches (translatorCfg transport glossary batch_size)
        st items order).results.length = items.length := by
      rw [hres, placeResults_length, List.length_replicate]
    have hnone : ∀ x ∈ (process_batches
        (translatorCfg transport glossary batch_size) st items
        order).results, x = none := by
      rw [hres]
      exact placeResults_all_none _ _ _ _
        (fun x hx => List.eq_of_mem_replicate hx) hrbf.2
    have hstate : (process_batches (translatorCfg transport glossary
        batch_size) st items order).state =
        (runBatches (translatorCfg transport glossary batch_size) st
          (chunks items batch_size)).2 := by
      simp [process_batches, hl]
      rfl
    rw [hti]
    exact ⟨zipWith_fallback_all_none items _ hlen hnone,
      by rw [hstate]; exact hrbf.1⟩

/-- Witness for C1: one item with `en_value = "hello"`, always-failing
transport, fresh client state. -/
theorem translate_items_total_failure_witness :
    (translate_items (fun _ => none) [] 20 initState
      [⟨"s", "k", "hello", none, false, -1, true⟩] [0]).1 =
      ([⟨"s", "k", "hello", none, false, -1, true⟩] :
        List TranslationItem).map (fun it => it.en_value) ∧
    (translate_items (fun _ => none) [] 20 initState
      [⟨"s", "k", "hello", none, false, -1, true⟩] [0]).2.cache = [] :=
  translate_items_total_failure (fun _ => none) [] 20 initState
    [⟨"s", "k", "hello", none, false, -1, true⟩] [0]
    (fun _ => rfl) rfl (by decide)
